import Mathlib

/-!
Verification development for the dataflow-graph executor in
gquant/dataframe_flow/_node_flow.py (class NodeTaskGraphMixin).

The Python code is shallowly embedded: Python dicts become association
lists with first-match lookup (insertion order preserved, as in CPython),
raising code returns Except, and the unbounded recursive graph walks
(columns_flow / flow) take an explicit fuel parameter and return none on
exhaustion.  Names follow the source (leading underscores dropped).
-/

set_option autoImplicit false

namespace GQuant

/-! ### Python dict model -/

/-- A Python dict with string keys: an association list in insertion order,
looked up by first match. -/
abbrev PDict (β : Type) := List (String × β)

/-- Dict lookup (d.get / d[k]): first matching entry. -/
def pget {β : Type} : PDict β → String → Option β
  | [], _ => none
  | (k, v) :: t, key => if k = key then some v else pget t key

/-- Dict write (d[k] = v): replace the first matching entry in place,
append when the key is absent. -/
def pset {β : Type} : PDict β → String → β → PDict β
  | [], key, val => [(key, val)]
  | (k, v) :: t, key, val =>
    if k = key then (key, val) :: t else (k, v) :: pset t key val

/-- Dict delete (del d[k]): drop the first matching entry.  The caller
checks presence; on an absent key Python raises, which the callers below
model explicitly. -/
def pdel {β : Type} : PDict β → String → PDict β
  | [], _ => []
  | (k, v) :: t, key => if k = key then t else (k, v) :: pdel t key

/-- Python d.update(other): write every entry of other into d in order. -/
def pupdate {β : Type} (d other : PDict β) : PDict β :=
  other.foldl (fun acc kv => pset acc kv.1 kv.2) d

/-! ### Column-schema data model -/

/-- A column type tag: a dtype string, or None meaning any type. -/
abbrev CType := Option String

/-- A column schema: Python dict from column name to type tag. -/
abbrev SchemaL := PDict CType

/-- A value stored in a node's conf: a string, a list of strings, or any
other Python object (the schema code only ever distinguishes these three). -/
inductive ConfV where
  | s (v : String)
  | l (vs : List String)
  | other (tag : String)
deriving DecidableEq

/-- A column-operation attribute (required/addition/deletion/retention/
rename): Python stores one object per attribute, which the ported code
path reads as a dict port -> column map and the legacy path reads as a
flat column map. -/
inductive OpVal where
  | ported (m : PDict SchemaL)
  | flat (m : SchemaL)
deriving DecidableEq

/-- Python truthiness of a column-op attribute (None and {} are falsy). -/
def opTruthy : Option OpVal → Bool
  | none => false
  | some (.ported m) => !m.isEmpty
  | some (.flat m) => !m.isEmpty

/-- Static data of one node, as consumed by columns_flow (the mixin reads
these off the Node class it is mixed into). -/
structure CNode where
  uid : String
  usingPorts : Bool             -- _using_ports()
  inPortsL : List String        -- _get_input_ports(); also the to_ports of self.inputs
  outPortsL : List String       -- _get_output_ports()
  conf : PDict ConfV
  taskInputs : PDict String     -- _task_obj[inputs]: port -> upstream task id (ported)
  taskInputsFlat : List String  -- _task_obj[inputs]: upstream task ids (legacy)
  required : Option OpVal
  addition : Option OpVal
  deletion : Option OpVal
  retention : Option OpVal
  rename : Option OpVal
deriving DecidableEq

/-- Fatal errors of the schema-propagation pass (Python raises Exception;
the constructors record the data interpolated into the message). -/
inductive CErr where
  | missingRequired (uid kcol : String) (src : Option (String × Option String))
  | keyErr (k : String)
  | delErr (k : String)
  | renameErr (uid k : String)
  | shapeErr
  | badConfType (k : String)
  | badRenameTarget (k : String)
deriving DecidableEq

/-- A reported (printed, non-fatal) discrepancy. -/
inductive Report where
  | typeMismatch (uid : String) (kval icol : CType)
deriving DecidableEq

/-! ### translate_column (the @-macro SchemaTransform) -/

/-- The test s.startswith an at sign together with the slice s[1:],
performed on the underlying character list. -/
def at_name (s : String) : Option String :=
  match s.data with
  | '@' :: rest => some (String.mk rest)
  | _ => none

/-- One iteration of the loop in __translate_column: process one
(col_name, col_type) entry against conf, updating the output dict.
A conf value that is neither a string nor a list contributes nothing
for an @-key.  A missing conf key is a Python KeyError.  An @-type
whose conf value is not a string is modelled as an error. -/
def translate_step (conf : PDict ConfV) (out : SchemaL) (cn : String) (ct : CType) :
    Except CErr SchemaL := do
  let ct2 ←
    match ct with
    | some t =>
      match at_name t with
      | some fld =>
        match pget conf fld with
        | none => Except.error (.keyErr fld)
        | some (.s v) => pure (some v)
        | some _ => Except.error (.badConfType fld)
      | none => pure (some t)
    | none => pure none
  match at_name cn with
  | some fld =>
    match pget conf fld with
    | none => Except.error (.keyErr fld)
    | some (.s v) => pure (pset out v ct2)
    | some (.l items) => pure (items.foldl (fun a it => pset a it none) out)
    | some (.other _) => pure out
  | none => pure (pset out cn ct2)

/-- The loop of __translate_column, starting from a given output dict. -/
def translate_from (conf : PDict ConfV) : SchemaL → List (String × CType) → Except CErr SchemaL
  | out, [] => pure out
  | out, (cn, ct) :: t => do translate_from conf (← translate_step conf out cn ct) t

/-- __translate_column. -/
def translate_column (conf : PDict ConfV) (columns : List (String × CType)) :
    Except CErr SchemaL :=
  translate_from conf [] columns

/-! ### validate_required -/

/-- The datetime equivalence class from validate_required. -/
def dateClass : List CType := [some "datetime64[ms]", some "date", some "datetime64[ns]"]

/-- validate_required (inner function of columns_flow): a missing required
column raises; on a type mismatch, nothing is reported when the declared
type is date and the incoming type is in the datetime class, otherwise a
non-fatal discrepancy is printed (returned here as a report). -/
def validate_required (uid : String) (icols : SchemaL) (kcol : String) (kval : CType)
    (in_taskid : Option String) (iport : Option String) : Except CErr (List Report) :=
  match pget icols kcol with
  | none => Except.error (.missingRequired uid kcol (in_taskid.map (fun t => (t, iport))))
  | some ity =>
    if kval ≠ ity then
      if kval = some "date" ∧ ity ∈ dateClass then pure []
      else pure [.typeMismatch uid kval ity]
    else pure []

/-- Run validate_required over every translated required column. -/
def validate_required_all (uid : String) (icols : SchemaL) :
    List (String × CType) → Option String → Option String → Except CErr (List Report)
  | [], _, _ => pure []
  | (kcol, kval) :: t, tid, ip => do
    let r ← validate_required uid icols kcol kval tid ip
    let more ← validate_required_all uid icols t tid ip
    pure (r ++ more)

/-! ### The per-port operation loops of columns_flow -/

/-- Read a column-op attribute in its ported shape (None acts as {}). -/
def portedOp : Option OpVal → Except CErr (PDict SchemaL)
  | none => pure []
  | some (.ported m) => pure m
  | some (.flat _) => Except.error .shapeErr

/-- Read a column-op attribute in its flat shape (None acts as {}). -/
def flatOp : Option OpVal → Except CErr SchemaL
  | none => pure []
  | some (.flat m) => pure m
  | some (.ported _) => Except.error .shapeErr

/-- The flattening comprehension for legacy nodes: merge all inbound
per-port schemas into one dict, in iteration order (last write wins). -/
def flatten_cols (m : PDict SchemaL) : SchemaL :=
  m.foldl (fun acc kv => pupdate acc kv.2) []

/-- The ported required-validation loop of columns_flow. -/
def required_ported_check (n : CNode) (r : PDict SchemaL) (inputs_cols : PDict SchemaL) :
    List String → Except CErr (List Report)
  | [] => pure []
  | iport :: rest => do
    let required_iport := (pget r iport).getD []
    let required_tran ← translate_column n.conf required_iport
    let incoming_cols ←
      match pget inputs_cols iport with
      | some c => pure c
      | none => Except.error (.keyErr iport)
    let in_taskid ←
      match pget n.taskInputs iport with
      | some t => pure t
      | none => Except.error (.keyErr iport)
    let reps ← validate_required_all n.uid incoming_cols required_tran (some in_taskid) (some iport)
    let more ← required_ported_check n r inputs_cols rest
    pure (reps ++ more)

/-- Seed the ported output schema: per output port, the translated
required columns of that port. -/
def seed_ports (n : CNode) (rq : PDict SchemaL) :
    List String → PDict SchemaL → Except CErr (PDict SchemaL)
  | [], out => pure out
  | oport :: rest, out => do
    let tran ← translate_column n.conf ((pget rq oport).getD [])
    seed_ports n rq rest (pset out oport tran)

/-- The ported addition loop: merge translated added columns into each
output port's schema. -/
def apply_addition_ports (n : CNode) (a : PDict SchemaL) :
    List String → PDict SchemaL → Except CErr (PDict SchemaL)
  | [], out => pure out
  | oport :: rest, out => do
    let add_cols ← translate_column n.conf ((pget a oport).getD [])
    let col_dict := (pget out oport).getD []
    apply_addition_ports n a rest (pset out oport (pupdate col_dict add_cols))

/-- Delete each translated key from a schema; a missing key is the Python
KeyError of del. -/
def del_all : SchemaL → List (String × CType) → Except CErr SchemaL
  | cols, [] => pure cols
  | cols, (k, _) :: t =>
    match pget cols k with
    | none => Except.error (.delErr k)
    | some _ => del_all (pdel cols k) t

/-- The ported deletion loop. -/
def apply_deletion_ports (n : CNode) (dl : PDict SchemaL) :
    List String → PDict SchemaL → Except CErr (PDict SchemaL)
  | [], out => pure out
  | oport :: rest, out => do
    let del_cols ← translate_column n.conf ((pget dl oport).getD [])
    let col_dict := (pget out oport).getD []
    let col_dict2 ← del_all col_dict del_cols
    apply_deletion_ports n dl rest (pset out oport col_dict2)

/-- The ported retention loop: replace each output port's schema with the
translated retention set of that port. -/
def apply_retention_ports (n : CNode) (r : PDict SchemaL) :
    List String → PDict SchemaL → Except CErr (PDict SchemaL)
  | [], out => pure out
  | oport :: rest, out => do
    let cols ← translate_column n.conf ((pget r oport).getD [])
    apply_retention_ports n r rest (pset out oport cols)

/-- The rename loop body: for each (old, new) pair, old must exist in the
schema (RenameError otherwise); its type is carried to new and old is
removed.  A None target, which Python would store as a None dict key, is
modelled as an error. -/
def apply_rename (uid : String) : List (String × CType) → SchemaL → Except CErr SchemaL
  | [], cols => pure cols
  | (ck, rn) :: t, cols =>
    match pget cols ck with
    | none => Except.error (.renameErr uid ck)
    | some ty =>
      match rn with
      | some rname => apply_rename uid t (pset (pdel cols ck) rname ty)
      | none => Except.error (.badRenameTarget ck)

/-- The ported rename loop. -/
def apply_rename_ports (n : CNode) (rn : PDict SchemaL) :
    List String → PDict SchemaL → Except CErr (PDict SchemaL)
  | [], out => pure out
  | oport :: rest, out => do
    let replacement ← translate_column n.conf ((pget rn oport).getD [])
    let col_dict := (pget out oport).getD []
    let col_dict2 ← apply_rename n.uid replacement col_dict
    apply_rename_ports n rn rest (pset out oport col_dict2)

/-- output_columns: dict port -> schema for a ported node, a flat schema
for a legacy node. -/
inductive OutView where
  | ports (m : PDict SchemaL)
  | flat (m : SchemaL)
deriving DecidableEq

/-- The required-validation step (ported): runs only when required is
truthy. -/
def required_stage (n : CNode) (inputs_cols : PDict SchemaL) : Except CErr (List Report) :=
  if opTruthy n.required then do
    let r ← portedOp n.required
    required_ported_check n r inputs_cols n.inPortsL
  else pure []

/-- The addition step (ported): runs only when addition is truthy. -/
def addition_stage (n : CNode) (out : PDict SchemaL) : Except CErr (PDict SchemaL) :=
  if opTruthy n.addition then do
    let a ← portedOp n.addition
    apply_addition_ports n a n.outPortsL out
  else pure out

/-- The deletion step (ported): runs only when deletion is truthy. -/
def deletion_stage (n : CNode) (out : PDict SchemaL) : Except CErr (PDict SchemaL) :=
  if opTruthy n.deletion then do
    let d ← portedOp n.deletion
    apply_deletion_ports n d n.outPortsL out
  else pure out

/-- The retention step (ported): runs whenever retention is not None. -/
def retention_stage (n : CNode) (out : PDict SchemaL) : Except CErr (PDict SchemaL) :=
  if n.retention.isSome then do
    let r ← portedOp n.retention
    apply_retention_ports n r n.outPortsL out
  else pure out

/-- The rename step (ported): runs only when rename is truthy. -/
def rename_stage (n : CNode) (out : PDict SchemaL) : Except CErr (PDict SchemaL) :=
  if opTruthy n.rename then do
    let r ← portedOp n.rename
    apply_rename_ports n r n.outPortsL out
  else pure out

/-- The required-validation step (legacy flat). -/
def required_stage_flat (n : CNode) (incoming_cols : SchemaL) : Except CErr (List Report) :=
  if opTruthy n.required then do
    let r ← flatOp n.required
    let required_tran ← translate_column n.conf r
    let in_taskids := String.intercalate ", " n.taskInputsFlat
    validate_required_all n.uid incoming_cols required_tran (some in_taskids) none
  else pure []

/-- The addition step (legacy flat). -/
def addition_stage_flat (n : CNode) (out : SchemaL) : Except CErr SchemaL :=
  if opTruthy n.addition then do
    let a ← flatOp n.addition
    let add_cols ← translate_column n.conf a
    pure (pupdate out add_cols)
  else pure out

/-- The deletion step (legacy flat). -/
def deletion_stage_flat (n : CNode) (out : SchemaL) : Except CErr SchemaL :=
  if opTruthy n.deletion then do
    let d ← flatOp n.deletion
    let dels ← translate_column n.conf d
    del_all out dels
  else pure out

/-- The retention step (legacy flat): replaces the whole schema. -/
def retention_stage_flat (n : CNode) (out : SchemaL) : Except CErr SchemaL :=
  if n.retention.isSome then do
    let r ← flatOp n.retention
    translate_column n.conf r
  else pure out

/-- The rename step (legacy flat). -/
def rename_stage_flat (n : CNode) (out : SchemaL) : Except CErr SchemaL :=
  if opTruthy n.rename then do
    let r ← flatOp n.rename
    let replacement ← translate_column n.conf r
    apply_rename n.uid replacement out
  else pure out

/-- The per-node body of columns_flow (source lines 159 to 284): compute
the node's output_columns from its input_columns.  The printed type
discrepancies do not affect control flow and are discarded here; the
push to children and the recursion (lines 286 to 306) are columns_flow
below.  Attribute defaults are not in the source file; following the
spec, a missing (None) op attribute reads as an empty dict where the
code calls .get on it unconditionally. -/
def columns_flow_core (n : CNode) (input_columns : PDict SchemaL) : Except CErr OutView :=
  if n.usingPorts then do
    let _ ← required_stage n input_columns
    let rq ← portedOp n.required
    let combined ← seed_ports n rq n.outPortsL []
    let o1 ← addition_stage n combined
    let o2 ← deletion_stage n o1
    let o3 ← retention_stage n o2
    let o4 ← rename_stage n o3
    pure (.ports o4)
  else do
    let incoming_cols := flatten_cols input_columns
    let _ ← required_stage_flat n incoming_cols
    let o1 ← addition_stage_flat n incoming_cols
    let o2 ← deletion_stage_flat n o1
    let o3 ← retention_stage_flat n o2
    let o4 ← rename_stage_flat n o3
    pure (.flat o4)

/-! ### The schema-propagation graph walk -/

/-- An outgoing edge record (an entry of self.outputs). -/
structure CEdge where
  toNode : Nat
  toPort : String
  fromPort : Option String
deriving DecidableEq

/-- A task graph for schema propagation: node registry plus, per node,
its outgoing edge list. -/
structure CGraph where
  node : Nat → CNode
  outs : Nat → List CEdge

/-- Transient per-node schema state: input_columns and output_columns of
every node. -/
structure SState where
  inCols : Nat → PDict SchemaL
  outCols : Nat → OutView

/-- __input_columns_ready: every inbound port present in input_columns. -/
def input_columns_ready (g : CGraph) (v : Nat) (s : SState) : Bool :=
  (g.node v).inPortsL.all (fun p => (pget (s.inCols v) p).isSome)

/-- The per-edge slice of output_columns pushed to a child (source lines
291 to 304): select by from_port; with no from_port, a ported node
flattens all its output ports for a legacy target.  A shape mismatch
between the stored view and the lookup the code performs is an error. -/
def select_out_cols (n : CNode) (out : OutView) (oport : Option String) :
    Except CErr SchemaL :=
  match oport with
  | some p =>
    match out with
    | .ports m =>
      match pget m p with
      | some c => pure c
      | none => Except.error (.keyErr p)
    | .flat _ => Except.error .shapeErr
  | none =>
    match out with
    | .ports m => if n.usingPorts then pure (flatten_cols m) else Except.error .shapeErr
    | .flat c => if n.usingPorts then Except.error .shapeErr else pure c

/-- onode.__set_input_column(iport, cols). -/
def setInCol (s : SState) (v : Nat) (p : String) (cols : SchemaL) : SState :=
  { s with inCols := Function.update s.inCols v (pset (s.inCols v) p cols) }

/-- self.output_columns = output_cols. -/
def setOutCols (s : SState) (v : Nat) (out : OutView) : SState :=
  { s with outCols := Function.update s.outCols v out }

mutual

/-- columns_flow: if the node's inbound schemas are not all known, return
without touching any state; otherwise compute output_columns, store it,
and push a slice along every outgoing edge, recursing into each child.
The recursion is bounded by fuel (none on exhaustion or fatal error). -/
def columns_flow (fuel : Nat) (g : CGraph) (v : Nat) (s : SState) : Option SState :=
  match fuel with
  | 0 => none
  | fuel2 + 1 =>
    if input_columns_ready g v s then
      match columns_flow_core (g.node v) (s.inCols v) with
      | .error _ => none
      | .ok out => columns_flow_edges fuel2 g v out (g.outs v) (setOutCols s v out)
    else some s
termination_by (fuel, 0)

/-- The outgoing-edge loop of columns_flow. -/
def columns_flow_edges (fuel : Nat) (g : CGraph) (v : Nat) (out : OutView)
    (es : List CEdge) (s : SState) : Option SState :=
  match es with
  | [] => some s
  | e :: rest =>
    match select_out_cols (g.node v) out e.fromPort with
    | .error _ => none
    | .ok cols =>
      match columns_flow fuel g e.toNode (setInCol s e.toNode e.toPort cols) with
      | none => none
      | some s2 => columns_flow_edges fuel g v out rest s2
termination_by (fuel, es.length + 1)

end

/-- Modelled from the spec: the driver that enters schema propagation is
not in _node_flow.py (it lives in the task-graph builder); per the spec
the walk is entered at the root nodes, each entry being one columns_flow
call.  propagate_all runs columns_flow on each start node in turn. -/
def propagate_all : Nat → CGraph → List Nat → SState → Option SState
  | _, _, [], s => some s
  | fuel, g, v :: rest, s =>
    match columns_flow fuel g v s with
    | none => none
    | some s2 => propagate_all fuel g rest s2

/-! ### Dict lemmas -/

theorem pget_pset_self {β : Type} (d : PDict β) (k : String) (v : β) :
    pget (pset d k v) k = some v := by
  induction d with
  | nil => simp [pset, pget]
  | cons h t ih =>
    by_cases hk : h.1 = k
    · simp [pset, hk, pget]
    · simp [pset, hk, pget, ih]

theorem pget_pset_ne {β : Type} (d : PDict β) (k k' : String) (v : β) (h : k ≠ k') :
    pget (pset d k v) k' = pget d k' := by
  induction d with
  | nil => simp [pset, pget, h]
  | cons hd t ih =>
    by_cases hk : hd.1 = k
    · simp [pset, hk, pget, h]
    · simp [pset, hk, pget, ih]

theorem pset_self {β : Type} (d : PDict β) (k : String) (v : β) (h : pget d k = some v) :
    pset d k v = d := by
  induction d with
  | nil => simp [pget] at h
  | cons hd t ih =>
    obtain ⟨a, b⟩ := hd
    by_cases hk : a = k
    · simp [pget, hk] at h
      simp [pset, hk, h]
    · simp [pget, hk] at h
      simp [pset, hk, ih h]

theorem pget_pdel_ne {β : Type} (d : PDict β) (k k' : String) (h : k ≠ k') :
    pget (pdel d k) k' = pget d k' := by
  induction d with
  | nil => simp [pdel]
  | cons hd t ih =>
    obtain ⟨a, b⟩ := hd
    by_cases hk : a = k
    · subst hk
      simp [pdel, pget, h]
    · simp [pdel, hk, pget, ih]

theorem pget_none_not_mem {β : Type} (d : PDict β) (k : String) (h : pget d k = none) :
    ∀ p ∈ d, p.1 ≠ k := by
  induction d with
  | nil => simp
  | cons hd t ih =>
    obtain ⟨a, b⟩ := hd
    by_cases hk : a = k
    · simp [pget, hk] at h
    · simp [pget, hk] at h
      intro p hp
      rcases List.mem_cons.mp hp with h1 | h1
      · subst h1
        simpa using hk
      · exact ih h p h1

theorem pget_of_no_key {β : Type} (d : PDict β) (k : String) (h : ∀ p ∈ d, p.1 ≠ k) :
    pget d k = none := by
  induction d with
  | nil => rfl
  | cons hd t ih =>
    have h1 : hd.1 ≠ k := h hd (by simp)
    simp [pget, h1]
    exact ih (fun p hp => h p (by simp [hp]))

theorem pset_eq_append {β : Type} (d : PDict β) (k : String) (v : β) (h : pget d k = none) :
    pset d k v = d ++ [(k, v)] := by
  induction d with
  | nil => rfl
  | cons hd t ih =>
    obtain ⟨a, b⟩ := hd
    by_cases hk : a = k
    · simp [pget, hk] at h
    · simp [pget, hk] at h
      simp [pset, hk, ih h]

theorem pdel_append {β : Type} (d : PDict β) (k : String) (v : β) (h : pget d k = none) :
    pdel (d ++ [(k, v)]) k = d := by
  induction d with
  | nil => simp [pdel]
  | cons hd t ih =>
    obtain ⟨a, b⟩ := hd
    by_cases hk : a = k
    · simp [pget, hk] at h
    · simp [pget, hk] at h
      simp [pdel, hk, ih h]

/-- Success inversion for Except bind. -/
theorem except_bind_ok {ε α β : Type} {x : Except ε α} {f : α → Except ε β} {b : β} :
    x >>= f = Except.ok b ↔ ∃ a, x = Except.ok a ∧ f a = Except.ok b := by
  cases x with
  | error e => simp [Bind.bind, Except.bind]
  | ok a => simp [Bind.bind, Except.bind]

/-! ### Behavior of the per-port loops -/

theorem apply_retention_ports_not_mem (n : CNode) (r : PDict SchemaL) (ports : List String)
    (out out2 : PDict SchemaL) (p : String) (hp : p ∉ ports)
    (h : apply_retention_ports n r ports out = Except.ok out2) :
    pget out2 p = pget out p := by
  induction ports generalizing out with
  | nil =>
    rw [apply_retention_ports] at h
    have h2 : (Except.ok out : Except CErr (PDict SchemaL)) = Except.ok out2 := h
    injection h2 with h3
    rw [h3]
  | cons q rest ih =>
    rw [apply_retention_ports] at h
    rw [except_bind_ok] at h
    obtain ⟨tc, _, h⟩ := h
    have hq : p ≠ q := fun hh => hp (hh ▸ List.mem_cons_self q rest)
    have := ih (pset out q tc) (fun hh => hp (List.mem_cons_of_mem q hh)) h
    rw [this, pget_pset_ne _ _ _ _ (fun hh => hq hh.symm)]

theorem apply_retention_ports_get (n : CNode) (r : PDict SchemaL) (ports : List String)
    (out out2 : PDict SchemaL) (p : String) (hp : p ∈ ports) (tc : SchemaL)
    (htc : translate_column n.conf ((pget r p).getD []) = Except.ok tc)
    (h : apply_retention_ports n r ports out = Except.ok out2) :
    pget out2 p = some tc := by
  induction ports generalizing out with
  | nil => cases hp
  | cons q rest ih =>
    rw [apply_retention_ports] at h
    rw [except_bind_ok] at h
    obtain ⟨tc2, htc2, h⟩ := h
    by_cases hq : p ∈ rest
    · exact ih (pset out q tc2) hq h
    · have hpq : p = q := by
        rcases List.mem_cons.mp hp with h1 | h1
        · exact h1
        · exact absurd h1 hq
      subst hpq
      rw [htc] at htc2
      have hv : tc2 = tc := by
        cases htc2
        rfl
      subst hv
      rw [apply_retention_ports_not_mem n r rest _ _ p hq h, pget_pset_self]

theorem apply_rename_ports_not_mem (n : CNode) (rnm : PDict SchemaL) (ports : List String)
    (out out2 : PDict SchemaL) (p : String) (hp : p ∉ ports)
    (h : apply_rename_ports n rnm ports out = Except.ok out2) :
    pget out2 p = pget out p := by
  induction ports generalizing out with
  | nil =>
    rw [apply_rename_ports] at h
    have h2 : (Except.ok out : Except CErr (PDict SchemaL)) = Except.ok out2 := h
    injection h2 with h3
    rw [h3]
  | cons q rest ih =>
    rw [apply_rename_ports] at h
    rw [except_bind_ok] at h
    obtain ⟨repl, _, h⟩ := h
    rw [except_bind_ok] at h
    obtain ⟨cd, _, h⟩ := h
    have hq : p ≠ q := fun hh => hp (hh ▸ List.mem_cons_self q rest)
    have := ih (pset out q cd) (fun hh => hp (List.mem_cons_of_mem q hh)) h
    rw [this, pget_pset_ne _ _ _ _ (fun hh => hq hh.symm)]

theorem apply_rename_ports_get (n : CNode) (rnm : PDict SchemaL) (ports : List String)
    (out out2 : PDict SchemaL) (p : String) (hnd : ports.Nodup) (hp : p ∈ ports)
    (h : apply_rename_ports n rnm ports out = Except.ok out2) :
    ∃ repl res, translate_column n.conf ((pget rnm p).getD []) = Except.ok repl ∧
      apply_rename n.uid repl ((pget out p).getD []) = Except.ok res ∧
      pget out2 p = some res := by
  induction ports generalizing out with
  | nil => cases hp
  | cons q rest ih =>
    rw [apply_rename_ports] at h
    rw [except_bind_ok] at h
    obtain ⟨repl, hrepl, h⟩ := h
    rw [except_bind_ok] at h
    obtain ⟨cd, hcd, h⟩ := h
    rcases List.mem_cons.mp hp with h1 | h1
    · subst h1
      have hq : p ∉ rest := (List.nodup_cons.mp hnd).1
      refine ⟨repl, cd, hrepl, hcd, ?_⟩
      rw [apply_rename_ports_not_mem n rnm rest _ _ p hq h, pget_pset_self]
    · have hq : p ≠ q := by
        intro hh
        exact (List.nodup_cons.mp hnd).1 (hh ▸ h1)
      obtain ⟨repl2, res2, h2a, h2b, h2c⟩ :=
        ih (pset out q cd) (List.nodup_cons.mp hnd).2 h1 h
      rw [pget_pset_ne _ _ _ _ (fun hh => hq hh.symm)] at h2b
      exact ⟨repl2, res2, h2a, h2b, h2c⟩

/-! ### Plain translation lemmas -/

theorem translate_step_plain (conf : PDict ConfV) (out : SchemaL) (cn : String) (ct : CType)
    (hcn : at_name cn = none) (hct : ∀ t, ct = some t → at_name t = none) :
    translate_step conf out cn ct = Except.ok (pset out cn ct) := by
  cases ct with
  | none => simp [translate_step, hcn, pure, Except.pure, Bind.bind, Except.bind]
  | some t => simp [translate_step, hcn, hct t rfl, pure, Except.pure, Bind.bind, Except.bind]

theorem translate_column_pair (conf : PDict ConfV) (cn : String) (ct : CType)
    (hcn : at_name cn = none) (hct : ∀ t, ct = some t → at_name t = none) :
    translate_column conf [(cn, ct)] = Except.ok [(cn, ct)] := by
  have h1 := translate_step_plain conf [] cn ct hcn hct
  simp [translate_column, translate_from, h1, Bind.bind, Except.bind, pset, pure, Except.pure]

/-- Inversion of the ported pipeline of columns_flow_core when retention
is configured in ported shape: the retention loop ran on some
intermediate dict, followed by the rename stage. -/
theorem columns_flow_core_retention (n : CNode) (ic : PDict SchemaL) (res : OutView)
    (hports : n.usingPorts = true)
    (rret : PDict SchemaL) (hret : n.retention = some (.ported rret))
    (h : columns_flow_core n ic = Except.ok res) :
    ∃ o2 o3 o4 : PDict SchemaL,
      apply_retention_ports n rret n.outPortsL o2 = Except.ok o3 ∧
      rename_stage n o3 = Except.ok o4 ∧
      res = .ports o4 := by
  rw [columns_flow_core] at h
  rw [hports] at h
  simp only [eq_self_iff_true, if_true] at h
  rw [except_bind_ok] at h
  obtain ⟨u1, _, h⟩ := h
  rw [except_bind_ok] at h
  obtain ⟨rq, _, h⟩ := h
  rw [except_bind_ok] at h
  obtain ⟨combined, _, h⟩ := h
  rw [except_bind_ok] at h
  obtain ⟨o1, _, h⟩ := h
  rw [except_bind_ok] at h
  obtain ⟨o2, _, h⟩ := h
  rw [except_bind_ok] at h
  obtain ⟨o3, hretst, h⟩ := h
  rw [except_bind_ok] at h
  obtain ⟨o4, hrenst, h⟩ := h
  have hres : res = .ports o4 := by
    have h2 : (Except.ok (OutView.ports o4) : Except CErr OutView) = Except.ok res := h
    injection h2 with h3
    rw [h3]
  rw [retention_stage] at hretst
  rw [hret] at hretst
  simp only [Option.isSome_some, if_true] at hretst
  have hpo : portedOp (some (OpVal.ported rret)) = Except.ok rret := rfl
  rw [except_bind_ok] at hretst
  obtain ⟨rr0, hrr0, hretst⟩ := hretst
  rw [hpo] at hrr0
  have hrr0e : rr0 = rret := by
    have h2 : (Except.ok rret : Except CErr (PDict SchemaL)) = Except.ok rr0 := hrr0
    injection h2 with h3
    rw [h3]
  subst hrr0e
  exact ⟨o2, o3, o4, hretst, hrenst, hres⟩

/-- C1: during schema propagation, retention is applied after addition and
replaces the whole per-port output schema with the translated retention
set: a node with addition z int64 and retention y int64 on the same port
ends with exactly the schema y int64 on that port, the addition being
discarded (no rename configured, so the retention result is final). -/
theorem c1_retention_discards_addition (n : CNode) (ic : PDict SchemaL) (p : String)
    (radd rret : PDict SchemaL) (out : PDict SchemaL)
    (hports : n.usingPorts = true)
    (hp : p ∈ n.outPortsL)
    (hadd : n.addition = some (.ported radd))
    (haddp : pget radd p = some [("z", some "int64")])
    (hret : n.retention = some (.ported rret))
    (hretp : pget rret p = some [("y", some "int64")])
    (hren : opTruthy n.rename = false)
    (h : columns_flow_core n ic = Except.ok (.ports out)) :
    pget out p = some [("y", some "int64")] := by
  obtain ⟨o2, o3, o4, hretf, hrenf, hres⟩ :=
    columns_flow_core_retention n ic (.ports out) hports rret hret h
  rw [rename_stage, hren] at hrenf
  simp only [Bool.false_eq_true, if_false] at hrenf
  have hrenf2 : o3 = o4 := by
    have h2 : (Except.ok o3 : Except CErr (PDict SchemaL)) = Except.ok o4 := hrenf
    injection h2 with h3
  have hout : out = o4 := by injection hres with hh
  subst hout
  rw [← hrenf2]
  have htc : translate_column n.conf ((pget rret p).getD []) =
      Except.ok [("y", some "int64")] := by
    rw [hretp]
    exact translate_column_pair n.conf "y" (some "int64") rfl
      (fun t ht => by cases ht; rfl)
  exact apply_retention_ports_get n rret n.outPortsL o2 o3 p hp _ htc hretf

/-- C1 witness: a concrete ported node with addition z int64 and retention
y int64 on port o1 whose propagation ends with exactly y int64 there. -/
theorem c1_witness :
    pget [("o1", [("y", some ("int64" : String))])] "o1" = some [("y", some "int64")] := by
  have hnode : columns_flow_core
      { uid := "n1", usingPorts := true, inPortsL := [], outPortsL := ["o1"],
        conf := [], taskInputs := [], taskInputsFlat := [],
        required := none,
        addition := some (.ported [("o1", [("z", some "int64")])]),
        deletion := none,
        retention := some (.ported [("o1", [("y", some "int64")])]),
        rename := none } [] =
      Except.ok (.ports [("o1", [("y", some "int64")])]) := rfl
  have := c1_retention_discards_addition
    { uid := "n1", usingPorts := true, inPortsL := [], outPortsL := ["o1"],
      conf := [], taskInputs := [], taskInputsFlat := [],
      required := none,
      addition := some (.ported [("o1", [("z", some "int64")])]),
      deletion := none,
      retention := some (.ported [("o1", [("y", some "int64")])]),
      rename := none } [] "o1"
    [("o1", [("z", some "int64")])] [("o1", [("y", some "int64")])]
    [("o1", [("y", some "int64")])]
    rfl (by simp) rfl rfl rfl rfl rfl hnode
  simpa using this

/-- C9: when retention is configured (not None) on a ported node, each
declared output port with no entry in the retention map ends schema
propagation with an empty output schema for that port: the replacement
step applies the translation of the empty default, discarding the seeded
required columns and prior additions there. -/
theorem c9_retention_empties_unmentioned_ports (n : CNode) (ic : PDict SchemaL) (p : String)
    (rret : PDict SchemaL) (out : PDict SchemaL)
    (hports : n.usingPorts = true)
    (hnd : n.outPortsL.Nodup)
    (hp : p ∈ n.outPortsL)
    (hret : n.retention = some (.ported rret))
    (hretp : pget rret p = none)
    (h : columns_flow_core n ic = Except.ok (.ports out)) :
    pget out p = some [] := by
  obtain ⟨o2, o3, o4, hretf, hrenf, hres⟩ :=
    columns_flow_core_retention n ic (.ports out) hports rret hret h
  have hout : out = o4 := by injection hres with hh
  subst hout
  have htc : translate_column n.conf ((pget rret p).getD []) = Except.ok [] := by
    rw [hretp]
    rfl
  have h3 : pget o3 p = some [] :=
    apply_retention_ports_get n rret n.outPortsL o2 o3 p hp [] htc hretf
  rw [rename_stage] at hrenf
  by_cases hren : opTruthy n.rename = true
  · rw [if_pos hren] at hrenf
    rw [except_bind_ok] at hrenf
    obtain ⟨rr, hrr, hrenf⟩ := hrenf
    obtain ⟨repl, res2, hrepl, happ, hget⟩ :=
      apply_rename_ports_get n rr n.outPortsL o3 out p hnd hp hrenf
    rw [h3] at happ
    cases repl with
    | nil =>
      have hres2 : res2 = [] := by
        have h2 : (Except.ok ([] : SchemaL) : Except CErr SchemaL) = Except.ok res2 := happ
        injection h2 with hh
        rw [← hh]
      rw [hget, hres2]
    | cons hd tl =>
      obtain ⟨ck, rn⟩ := hd
      simp [apply_rename, pget, Option.getD] at happ
  · rw [if_neg hren] at hrenf
    have h2 : (Except.ok o3 : Except CErr (PDict SchemaL)) = Except.ok out := hrenf
    injection h2 with hh
    rw [← hh]
    exact h3

/-- C9 witness: a ported node with two output ports and retention naming
only the first; the second port ends with an empty schema. -/
theorem c9_witness :
    pget [("o1", [("y", some ("int64" : String))]), ("o2", [])] "o2" = some [] := by
  have hnode : columns_flow_core
      { uid := "n1", usingPorts := true, inPortsL := [], outPortsL := ["o1", "o2"],
        conf := [], taskInputs := [], taskInputsFlat := [],
        required := none, addition := none, deletion := none,
        retention := some (.ported [("o1", [("y", some "int64")])]),
        rename := none } [] =
      Except.ok (.ports [("o1", [("y", some "int64")]), ("o2", [])]) := rfl
  have := c9_retention_empties_unmentioned_ports
    { uid := "n1", usingPorts := true, inPortsL := [], outPortsL := ["o1", "o2"],
      conf := [], taskInputs := [], taskInputsFlat := [],
      required := none, addition := none, deletion := none,
      retention := some (.ported [("o1", [("y", some "int64")])]),
      rename := none } [] "o2"
    [("o1", [("y", some "int64")])] [("o1", [("y", some "int64")]), ("o2", [])]
    rfl (by decide) (by decide) rfl rfl hnode
  simpa using this

/-- C2 (amended): for a required column that is present in the inbound
schema the check never raises; the pair is silently accepted exactly when
the two types are equal, or the declared type is date and the incoming
type is in the datetime class; every other pair yields one non-fatal
reported discrepancy.  In particular two distinct members of the class
(say datetime64[ms] vs datetime64[ns]) are still reported. -/
theorem c2_required_type_check (uid : String) (icols : SchemaL) (kcol : String) (kval : CType)
    (tid ip : Option String) (ity : CType)
    (hin : pget icols kcol = some ity) :
    validate_required uid icols kcol kval tid ip =
      Except.ok (if kval = ity ∨ (kval = some "date" ∧ ity ∈ dateClass) then []
        else [.typeMismatch uid kval ity]) := by
  rw [validate_required, hin]
  by_cases h1 : kval = ity
  · simp [h1, pure, Except.pure]
  · by_cases h2 : kval = some "date" ∧ ity ∈ dateClass
    · simp [h1, h2, pure, Except.pure]
    · simp [h1, h2, pure, Except.pure]

/-- C2 counterexample: declared datetime64[ms] against incoming
datetime64[ns]: both belong to the datetime equivalence class, yet
validate_required reports a discrepancy rather than treating the pair as
matching; only a declared type of exactly date gets the class treatment. -/
theorem c2_counterexample :
    (some "datetime64[ms]" : CType) ∈ dateClass ∧
    (some "datetime64[ns]" : CType) ∈ dateClass ∧
    validate_required "n1" [("x", some "datetime64[ns]")] "x" (some "datetime64[ms]") none none
      = Except.ok [Report.typeMismatch "n1" (some "datetime64[ms]") (some "datetime64[ns]")] := by
  refine ⟨by simp [dateClass], by simp [dateClass], rfl⟩

/-- C2 witness: a plain mismatch (int32 declared vs int64 incoming) is
reported non-fatally. -/
theorem c2_witness :
    validate_required "n1" [("x", some "int64")] "x" (some "int32") none none
      = Except.ok [Report.typeMismatch "n1" (some "int32") (some "int64")] := by
  rw [c2_required_type_check "n1" [("x", some "int64")] "x" (some "int32") none none
    (some "int64") rfl]
  rfl

/-- C8 (amended): renaming a to b and then b to a on a schema that has a
with type int64 and no b returns a schema with exactly the original
lookups; the hypothesis that b is absent is needed, since an existing b
would be overwritten by the first rename and lost. -/
theorem c8_rename_round_trip (u : String) (s : SchemaL)
    (ha : pget s "a" = some (some "int64")) (hb : pget s "b" = none) :
    ∃ s1 s2, apply_rename u [("a", some "b")] s = Except.ok s1 ∧
      apply_rename u [("b", some "a")] s1 = Except.ok s2 ∧
      ∀ k, pget s2 k = pget s k := by
  have hab : ("a" : String) ≠ "b" := by decide
  have hdelb : pget (pdel s "a") "b" = none := by
    rw [pget_pdel_ne _ _ _ hab]
    exact hb
  refine ⟨pset (pdel s "a") "b" (some "int64"),
    pset (pdel (pset (pdel s "a") "b" (some "int64")) "b") "a" (some "int64"), ?_, ?_, ?_⟩
  · simp [apply_rename, ha, pure, Except.pure]
  · have h1 : pget (pset (pdel s "a") "b" (some "int64")) "b" = some (some "int64") :=
      pget_pset_self _ _ _
    simp [apply_rename, h1, pure, Except.pure]
  · intro k
    have hpd : pdel (pset (pdel s "a") "b" (some "int64")) "b" = pdel s "a" := by
      rw [pset_eq_append _ _ _ hdelb]
      exact pdel_append _ _ _ hdelb
    by_cases hk : k = "a"
    · subst hk
      rw [pget_pset_self, ha]
    · rw [pget_pset_ne _ _ _ _ (fun hh => hk hh.symm), hpd]
      by_cases hk2 : k = "b"
      · subst hk2
        rw [hdelb, hb]
      · rw [pget_pdel_ne _ _ _ (fun hh => hk hh.symm)]

/-- C8 counterexample: with b already present (type float64), the round
trip does not restore the schema: b's entry is overwritten by the first
rename and then renamed away, so the final schema has no b at all. -/
theorem c8_counterexample :
    apply_rename "n1" [("a", some "b")] [("a", some "int64"), ("b", some "float64")]
      = Except.ok [("b", some "int64")] ∧
    apply_rename "n1" [("b", some "a")] [("b", some "int64")]
      = Except.ok [("a", some "int64")] ∧
    pget [("a", some ("int64" : String))] "b" ≠
      pget [("a", some "int64"), ("b", some "float64")] "b" := by
  refine ⟨rfl, rfl, by decide⟩

/-- C8 witness: the round trip on the singleton schema a int64. -/
theorem c8_witness :
    ∃ s1 s2, apply_rename "n1" [("a", some "b")] [("a", some "int64")] = Except.ok s1 ∧
      apply_rename "n1" [("b", some "a")] s1 = Except.ok s2 ∧
      ∀ k, pget s2 k = pget [("a", some "int64")] k :=
  c8_rename_round_trip "n1" [("a", some "int64")] rfl rfl

/-- C10: in column translation, an at-prefixed key whose conf lookup
yields a value that is neither a string nor a list contributes no entry
to the translated map: the entry is silently dropped (no passthrough, no
error), so translating it alone yields the empty dict. -/
theorem c10_at_key_other_dropped (conf : PDict ConfV) (acc : SchemaL) (cn fld : String)
    (ct : CType) (rest : List (String × CType)) (tag : String)
    (hat : at_name cn = some fld)
    (hconf : pget conf fld = some (.other tag))
    (hty : ∀ t, ct = some t → at_name t = none) :
    translate_from conf acc ((cn, ct) :: rest) = translate_from conf acc rest ∧
    translate_column conf [(cn, ct)] = Except.ok [] := by
  have hstep : translate_step conf acc cn ct = Except.ok acc := by
    cases ct with
    | none => simp [translate_step, hat, hconf, pure, Except.pure, Bind.bind, Except.bind]
    | some t =>
      simp [translate_step, hat, hconf, hty t rfl, pure, Except.pure, Bind.bind, Except.bind]
  have hstep0 : translate_step conf [] cn ct = Except.ok [] := by
    cases ct with
    | none => simp [translate_step, hat, hconf, pure, Except.pure, Bind.bind, Except.bind]
    | some t =>
      simp [translate_step, hat, hconf, hty t rfl, pure, Except.pure, Bind.bind, Except.bind]
  constructor
  · rw [translate_from, hstep]
    simp [Bind.bind, Except.bind]
  · rw [translate_column, translate_from, hstep0]
    simp [Bind.bind, Except.bind, translate_from, pure, Except.pure]

/-- C10 witness: the key at-f with conf f bound to a non-string non-list
value drops out of the translation. -/
theorem c10_witness :
    translate_from [("f", ConfV.other "obj")] [] [("@f", none), ("x", some "int64")]
      = translate_from [("f", ConfV.other "obj")] [] [("x", some "int64")] ∧
    translate_column [("f", ConfV.other "obj")] [("@f", none)] = Except.ok [] :=
  c10_at_key_other_dropped [("f", ConfV.other "obj")] [] "@f" "f" none
    [("x", some "int64")] "obj" rfl rfl (fun t ht => nomatch ht)

/-! ### Runtime data model (flow, __call__, validators, dask path) -/

/-- The reserved terminal node identifier. -/
def OUTPUT_ID : String := "f291b900-bd19-11e9-aca3-a81e84f29b0f_uni_output"

/-- A concrete table: a row count and columns mapped to dtype strings. -/
structure Tbl where
  length : Nat
  cols : PDict String
deriving DecidableEq

/-- A Python runtime value as this code inspects it: a cudf.DataFrame, a
dask_cudf.DataFrame (its partitions), a list, a dict, None, or any other
object identified by a tag. -/
inductive PyV where
  | vdf (t : Tbl)
  | vdask (parts : List Tbl)
  | vlist (vs : List PyV)
  | vdict (d : List (String × PyV))
  | vnone
  | vother (tag : String)

/-- The identity test x is None. -/
def isNoneV : PyV → Bool
  | .vnone => true
  | _ => false

/-- Runtime type tags (what type(x) comparisons distinguish). -/
inductive Ty where
  | tCudf
  | tDask
  | tList
  | tDict
  | tNone
  | tOther (tag : String)
deriving DecidableEq

def typeOf : PyV → Ty
  | .vdf _ => .tCudf
  | .vdask _ => .tDask
  | .vlist _ => .tList
  | .vdict _ => .tDict
  | .vnone => .tNone
  | .vother tag => .tOther tag

/-- len(df): the row count; for a distributed frame, the total over its
partitions.  Only ever taken after an isinstance check, so other values
do not matter. -/
def pyLen : PyV → Nat
  | .vdf t => t.length
  | .vdask parts => (parts.map (fun t => t.length)).sum
  | _ => 0

/-- df.columns with dtypes: for a distributed frame the partitions share
one schema, read off the first partition (the dask metadata). -/
def dfCols : PyV → PDict String
  | .vdf t => t.cols
  | .vdask parts => ((parts.head?).map (fun t => t.cols)).getD []
  | _ => []

/-- An output-port spec: the optional flag and the declared allowed type
set (the port's type entry, already normalized to a list; empty when the
spec declares none). -/
structure PortSpec where
  optional : Bool
  types : List Ty
deriving DecidableEq

/-- The load attribute: a bool, or a preset (truthy) value. -/
inductive LoadV where
  | boolv (b : Bool)
  | val (v : PyV)

/-- Which consumer the missing-output-port message names. -/
inductive OutDest where
  | graphOutput
  | inputToNode (uid : String)
deriving DecidableEq

/-- Fatal runtime errors (Python raises Exception; constructors hold the
data interpolated into the message). -/
inductive RErr where
  | noneOutput
  | didNotProduceOutput (uid pname : String)
  | wrongType (uid pname : String) (got : Ty) (expected : List Ty)
  | emptyOutput (uid : String)
  | notValidCols (uid : String)
  | notValidOutput (uid : String)
  | missingOutputPort (oport uid : String) (dest : OutDest)
  | partitionMismatch (uid iport : String) (countHere countFirst : Nat)
  | keyError (k : String)
  | indexError
  | typeConfusion
deriving DecidableEq

/-- A warning issued by the delayed-processing prerequisite check. -/
inductive Warn where
  | iportNotDask (uid iport : String) (ty : Ty)
  | oportBadType (uid oport : String) (tys : List Ty)
deriving DecidableEq

/-- Runtime-relevant data of one node. -/
structure RNode where
  uid : String
  usingPorts : Bool
  inPortsOrder : List String              -- to_ports of self.inputs, in order
  outPortsSpec : List (String × PortSpec) -- _get_output_ports(full_port_spec=True)
  load : LoadV
  save : Bool
  delayed_process : Bool
  profile : Bool
  clear_input : Bool
  outputColumns : OutView                 -- self.output_columns from the schema pass
  processF : PyV → PyV                    -- the external transform process
  loadCache : PyV                         -- value produced by the external load_cache()

/-- __make_copy: shallow copies for cudf and dask frames (same values in
this model), anything else passed through. -/
def make_copy : PyV → PyV
  | .vdf t => .vdf t
  | .vdask parts => .vdask parts
  | x => x

/-- decorate_process: the profiling timer wraps process without altering
its result, so both branches return the transform itself. -/
def decorate_process (n : RNode) : PyV → PyV := n.processF

/-! ### __check_dly_processing_prereq -/

/-- The second loop: warn about and reject every non-dask input. -/
def dly_check_inputs (uid : String) : List (String × Ty) → Bool × List Warn → Bool × List Warn
  | [], acc => acc
  | kv :: rest, acc =>
    if kv.2 = Ty.tDask then dly_check_inputs uid rest acc
    else dly_check_inputs uid rest (false, acc.2 ++ [Warn.iportNotDask uid kv.1 kv.2])

/-- The third loop: warn about and reject every output port whose
declared types include neither the distributed nor the in-memory kind. -/
def dly_check_oports (uid : String) :
    List (String × PortSpec) → Bool × List Warn → Bool × List Warn
  | [], acc => acc
  | ps :: rest, acc =>
    if Ty.tDask ∈ ps.2.types ∨ Ty.tCudf ∈ ps.2.types then dly_check_oports uid rest acc
    else dly_check_oports uid rest (false, acc.2 ++ [Warn.oportBadType uid ps.1 ps.2.types])

/-- __check_dly_processing_prereq: never raises; returns the use_delayed
flag together with the warnings issued. -/
def check_dly_processing_prereq (n : RNode) (inputs : List (String × PyV)) :
    Bool × List Warn :=
  let in_types := inputs.map (fun kv => (kv.1, typeOf kv.2))
  let use1 := in_types.any (fun kv => kv.2 = Ty.tDask)
  let a2 := if use1 then dly_check_inputs n.uid in_types (true, []) else (use1, [])
  if a2.1 then dly_check_oports n.uid n.outPortsSpec a2 else a2

/-! ### __delayed_call -/

/-- dcudf.to_delayed(): the partition list; anything that is not a
dask_cudf frame has no such method. -/
def to_delayed : PyV → Except RErr (List Tbl)
  | .vdask parts => pure parts
  | _ => Except.error .typeConfusion

/-- inputs_dly.setdefault(idly, {}).update({iport: dly}) over the
enumerated partition list: the partition-indexed dicts gain this input's
partition at each index. -/
def merge_partition : List (PDict Tbl) → String → List Tbl → List (PDict Tbl)
  | [], _, [] => []
  | [], ip, p :: ps => [(ip, p)] :: merge_partition [] ip ps
  | d :: ds, _, [] => d :: ds
  | d :: ds, ip, p :: ps => pset d ip p :: merge_partition ds ip ps

/-- The first loop of __delayed_call: decompose every input into its
partitions, requiring one common partition count; a mismatch raises
before any transform work is formed. -/
def delayed_gather (uid : String) :
    List (String × PyV) → Option Nat → List (PDict Tbl) → Except RErr (List (PDict Tbl))
  | [], _, acc => pure acc
  | (iport, dcudf) :: rest, npartitions, acc => do
    let ddf_dly_list ← to_delayed dcudf
    let np2 := ddf_dly_list.length
    let npartitions1 := npartitions.getD np2
    if npartitions1 ≠ np2 then
      Except.error (.partitionMismatch uid iport np2 npartitions1)
    else
      delayed_gather uid rest (some npartitions1) (merge_partition acc iport ddf_dly_list)

/-- get_pout: out_dict.get(port, empty frame), shallow-copying a cudf
result; the out_dict must be a dict at all. -/
def get_pout (out_dict : PyV) (port : String) : Except RErr PyV :=
  match out_dict with
  | .vdict d =>
    match (pget d port).getD (.vdf ⟨0, []⟩) with
    | .vdf t => pure (.vdf t)
    | x => pure x
  | _ => Except.error .typeConfusion

/-- The second loop of __delayed_call: run the transform once per
partition bundle and collect, per output port, the ordered partition
results. -/
def delayed_collect (n : RNode) (inputs_dly : List (PDict Tbl)) :
    Except RErr (PDict (List PyV)) :=
  inputs_dly.foldlM
    (fun outputs_dly inputs2 => do
      let output_df_dly := decorate_process n (.vdict (inputs2.map (fun kv => (kv.1, PyV.vdf kv.2))))
      n.outPortsSpec.foldlM
        (fun od ps => do
          let oport_out ← get_pout output_df_dly ps.1
          pure (pset od ps.1 ((pget od ps.1).getD [] ++ [oport_out])))
        outputs_dly)
    []

/-- dask_cudf.from_delayed: synthesize a distributed frame from per
partition frames. -/
def from_delayed (vs : List PyV) : Except RErr PyV := do
  let tbls ← vs.mapM (fun v =>
    match v with
    | PyV.vdf t => pure t
    | _ => Except.error RErr.typeConfusion)
  pure (.vdask tbls)

/-- __delayed_call. -/
def delayed_call (n : RNode) (inputs : List (String × PyV)) : Except RErr PyV := do
  let inputs_dly ← delayed_gather n.uid inputs none []
  let outputs_dly ← delayed_collect n inputs_dly
  let output_df ← n.outPortsSpec.foldlM
    (fun od ps => do
      match pget outputs_dly ps.1 with
      | none => Except.error (RErr.keyError ps.1)
      | some lst => do
        let d ← from_delayed lst
        pure (pset od ps.1 d))
    []
  pure (.vdict output_df)

/-! ### _validate_df and __valide -/

/-- The dtype equivalence classes of _validate_df (the string form of
np.dtype for an already canonical dtype string is itself). -/
def dtype_tuple (ref_ty : String) : List String :=
  if ref_ty = "category" then ["category"]
  else if ref_ty = "date" then ["datetime64[ms]", "date", "datetime64[ns]"]
  else [ref_ty]

/-- The per-column loop of _validate_df: a missing column or a dtype
outside the class returns False; a None expected type is skipped. -/
def check_ref_cols : PDict String → List (String × CType) → Bool
  | _, [] => true
  | icols, (col, rty) :: rest =>
    match pget icols col with
    | none => false
    | some dty =>
      match rty with
      | none => check_ref_cols icols rest
      | some rt => if dty ∈ dtype_tuple rt then check_ref_cols icols rest else false

/-- _validate_df: empty tabular output raises; non-tabular values pass;
otherwise the column count must match exactly (raise), every expected
column must be present with a dtype in its class (else False). -/
def validate_df (uid : String) (df_to_val : PyV) (ref_cols : Option SchemaL) :
    Except RErr Bool :=
  if (typeOf df_to_val = Ty.tCudf ∨ typeOf df_to_val = Ty.tDask) ∧ pyLen df_to_val = 0 then
    Except.error (.emptyOutput uid)
  else if ¬ (typeOf df_to_val = Ty.tCudf ∨ typeOf df_to_val = Ty.tDask) then
    pure true
  else
    match ref_cols with
    | none => Except.error .typeConfusion
    | some ref =>
      if (dfCols df_to_val).length ≠ ref.length then Except.error (.notValidCols uid)
      else pure (check_ref_cols (dfCols df_to_val) ref)

/-- One iteration of the per-port loop of __valide: for one declared
output port, run every check; an ok result means the loop continues with
the next port. -/
def valide_port_step (n : RNode) (ref_cols : OutView) (pname : String) (pspec : PortSpec) :
    PyV → Except RErr Unit
  | .vdict dout =>
    match pget dout pname with
    | none =>
      if pspec.optional then pure ()
      else Except.error (.didNotProduceOutput n.uid pname)
    | some out_val =>
      let out_type := typeOf out_val
      let expected_type := pspec.types
      let expected2 :=
        if n.delayed_process ∧ Ty.tCudf ∈ expected_type ∧ Ty.tDask ∉ expected_type
        then expected_type ++ [Ty.tDask] else expected_type
      if expected_type ≠ [] ∧ out_type ∉ expected2 then
        Except.error (.wrongType n.uid pname out_type expected2)
      else
        if (out_type = Ty.tCudf ∨ out_type = Ty.tDask) ∧ pyLen out_val = 0 ∧ pspec.optional
        then pure ()
        else
          if out_type = Ty.tCudf ∨ out_type = Ty.tDask then
            match ref_cols with
            | .ports m =>
              match validate_df n.uid out_val (pget m pname) with
              | .error e => Except.error e
              | .ok val_flag =>
                if val_flag then pure ()
                else Except.error (.notValidOutput n.uid)
            | .flat _ => Except.error .typeConfusion
          else pure ()
  | _ => Except.error .typeConfusion

/-- The per-port loop of __valide. -/
def valide_ports (n : RNode) (node_output : PyV) (ref_cols : OutView) :
    List (String × PortSpec) → Except RErr Unit
  | [] => pure ()
  | (pname, pspec) :: rest => do
    let _ ← valide_port_step n ref_cols pname pspec node_output
    valide_ports n node_output ref_cols rest

/-- __valide: per-port validation for ported nodes, one flat
_validate_df for legacy nodes. -/
def valide (n : RNode) (node_output : PyV) (ref_cols : OutView) : Except RErr Unit :=
  if n.usingPorts then
    valide_ports n node_output ref_cols n.outPortsSpec
  else
    match ref_cols with
    | .flat ref =>
      match validate_df n.uid node_output (some ref) with
      | .error e => Except.error e
      | .ok val_flag => if val_flag then pure () else Except.error (.notValidOutput n.uid)
    | .ports _ => Except.error .typeConfusion

/-! ### __call__ -/

/-- The dispatch part of __call__ (everything before the None check):
load bypass, input copying, and the eager / delayed / legacy-dask
branches. -/
def call_dispatch (n : RNode) (inputs_data : List (String × PyV)) : Except RErr PyV :=
  match n.load with
  | .boolv true => pure n.loadCache
  | .val v => pure v
  | .boolv false =>
    if n.usingPorts then
      let inputsd := inputs_data.map (fun kv => (kv.1, make_copy kv.2))
      if ¬ n.delayed_process then pure (decorate_process n (.vdict inputsd))
      else
        if (check_dly_processing_prereq n inputsd).1 then delayed_call n inputsd
        else pure (decorate_process n (.vdict inputsd))
    else do
      let vs ← n.inPortsOrder.mapM (fun p =>
        match pget inputs_data p with
        | some v => pure (make_copy v)
        | none => Except.error (RErr.keyError p))
      if ¬ n.delayed_process then pure (decorate_process n (.vlist vs))
      else
        match vs with
        | [] => Except.error .indexError
        | i_df :: rest =>
          match i_df with
          | .vdask parts =>
            from_delayed (parts.map (fun item => decorate_process n (.vlist (.vdf item :: rest))))
          | _ => pure (decorate_process n (.vlist (i_df :: rest)))

/-- The tail of __call__ (source lines 727 to 735): a None result is
fatal unless the node is the sentinel output node; otherwise __valide
runs against output_columns; save_cache is an external effect with no
bearing on the returned value. -/
def call_finalize (n : RNode) (output_df : PyV) : Except RErr PyV :=
  if n.uid ≠ OUTPUT_ID ∧ isNoneV output_df then
    Except.error .noneOutput
  else
    match valide n output_df n.outputColumns with
    | .error e => Except.error e
    | .ok _ => pure output_df

/-- __call__. -/
def call_node (n : RNode) (inputs_data : List (String × PyV)) : Except RErr PyV := do
  let output_df ← call_dispatch n inputs_data
  call_finalize n output_df

/-! ### flow -/

/-- An outgoing edge record (runtime). -/
structure REdge where
  toNode : Nat
  toPort : String
  fromPort : Option String
deriving DecidableEq

/-- The runtime graph: node registry and outgoing edges. -/
structure RGraph where
  node : Nat → RNode
  outs : Nat → List REdge

/-- Runtime state: every node's input_df. -/
structure RState where
  inDF : Nat → List (String × PyV)

/-- onode.__set_input_df(iport, df). -/
def set_input_df (s : RState) (v : Nat) (p : String) (df : PyV) : RState :=
  { inDF := Function.update s.inDF v (pset (s.inDF v) p df) }

/-- __input_ready: a non-bool or True load bypasses the check; otherwise
every inbound port must be present in input_df. -/
def input_ready (n : RNode) (in_df : List (String × PyV)) : Bool :=
  match n.load with
  | .val _ => true
  | .boolv true => true
  | .boolv false => n.inPortsOrder.all (fun p => (pget in_df p).isSome)

/-- Walk errors: a fatal runtime error, or fuel exhaustion of the model. -/
inductive FErr where
  | fuelOut
  | rerr (e : RErr)
deriving DecidableEq

/-- The per-edge selection of flow (source lines 483 to 509), including
the missing-output-port error whose message distinguishes a graph output
from another node's input, and the ported-to-legacy unpacking. -/
def flow_select (g : RGraph) (v : Nat) (output_df : PyV) (e : REdge) : Except RErr PyV :=
  match e.fromPort with
  | some oport =>
    match output_df with
    | .vdict d =>
      match pget d oport with
      | none =>
        Except.error (.missingOutputPort oport (g.node v).uid
          (if (g.node e.toNode).uid = OUTPUT_ID then OutDest.graphOutput
           else OutDest.inputToNode (g.node e.toNode).uid))
      | some df => pure df
    | _ => Except.error .typeConfusion
  | none =>
    if (g.node v).usingPorts ∧ ¬ (g.node e.toNode).usingPorts then
      match output_df with
      | .vdict d =>
        match d.map (fun kv => kv.2) with
        | [single] => pure single
        | multi => pure (.vlist (multi.map make_copy))
      | _ => Except.error .typeConfusion
    else pure output_df

mutual

/-- flow: if the inputs are not ready, return without effect; otherwise
invoke the node, optionally clear its input_df, and push the selected
output along every outgoing edge, recursing into each child. -/
def flow (fuel : Nat) (g : RGraph) (v : Nat) (s : RState) : Except FErr RState :=
  match fuel with
  | 0 => Except.error .fuelOut
  | fuel2 + 1 =>
    if input_ready (g.node v) (s.inDF v) then
      match call_node (g.node v) (s.inDF v) with
      | .error e => Except.error (.rerr e)
      | .ok output_df =>
        let s2 : RState :=
          if (g.node v).clear_input then { inDF := Function.update s.inDF v [] } else s
        flow_edges fuel2 g v output_df (g.outs v) s2
    else pure s
termination_by (fuel, 0)

/-- The outgoing-edge loop of flow. -/
def flow_edges (fuel : Nat) (g : RGraph) (v : Nat) (output_df : PyV)
    (es : List REdge) (s : RState) : Except FErr RState :=
  match es with
  | [] => pure s
  | e :: rest =>
    match flow_select g v output_df e with
    | .error er => Except.error (.rerr er)
    | .ok df =>
      match flow fuel g e.toNode (set_input_df s e.toNode e.toPort df) with
      | .error er => Except.error er
      | .ok s2 => flow_edges fuel g v output_df rest s2
termination_by (fuel, es.length + 1)

end

/-! ### C4: partition mismatch -/

theorem delayed_gather_all_or_mismatch (uid : String) (inputs : List (String × PyV))
    (np : Nat) (acc : List (PDict Tbl))
    (hdask : ∀ kv ∈ inputs, ∃ parts : List Tbl, kv.2 = PyV.vdask parts) :
    (∃ s, delayed_gather uid inputs (some np) acc = Except.ok s ∧
       ∀ kv ∈ inputs, ∀ parts : List Tbl, kv.2 = PyV.vdask parts → parts.length = np) ∨
    (∃ ip c, c ≠ np ∧
       delayed_gather uid inputs (some np) acc
         = Except.error (.partitionMismatch uid ip c np)) := by
  induction inputs generalizing acc with
  | nil => exact Or.inl ⟨acc, rfl, by simp⟩
  | cons kv rest ih =>
    obtain ⟨ip, dv⟩ := kv
    obtain ⟨parts, hp⟩ := hdask (ip, dv) (List.mem_cons_self _ _)
    simp only at hp
    subst hp
    rw [delayed_gather]
    simp only [to_delayed, Option.getD, Bind.bind, Except.bind, pure, Except.pure]
    by_cases hnp : np = parts.length
    · rw [if_neg (show ¬ np ≠ parts.length from fun h => h hnp)]
      rcases ih (merge_partition acc ip parts)
          (fun kv2 h2 => hdask kv2 (List.mem_cons_of_mem _ h2)) with h | h
      · obtain ⟨s, hs, hfact⟩ := h
        refine Or.inl ⟨s, hs, ?_⟩
        intro kv2 h2 parts2 hp2
        rcases List.mem_cons.mp h2 with h3 | h3
        · rw [h3] at hp2
          simp only at hp2
          injection hp2 with h4
          rw [← h4]
          exact hnp.symm
        · exact hfact kv2 h3 parts2 hp2
      · obtain ⟨ip2, c, hc, herr⟩ := h
        exact Or.inr ⟨ip2, c, hc, herr⟩
    · rw [if_pos (show np ≠ parts.length from hnp)]
      exact Or.inr ⟨ip, parts.length, fun h => hnp h.symm, rfl⟩

/-- C4 (amended wording matches the claim): a lazy-enabled ported node
whose distributed inputs disagree on partition count fails in
__delayed_call with a fatal partition-mismatch error naming the node,
the offending input port and both counts, and the result does not depend
on the transform at all: no partition-level invocation is scheduled. -/
theorem c4_partition_mismatch (n : RNode) (inputs : List (String × PyV)) (ip0 : String)
    (l0 : List Tbl) (rest : List (String × PyV))
    (hdly : n.delayed_process = true) (hports : n.usingPorts = true)
    (hin : inputs = (ip0, PyV.vdask l0) :: rest)
    (hdask : ∀ kv ∈ rest, ∃ parts : List Tbl, kv.2 = PyV.vdask parts)
    (hmis : ∃ kv ∈ rest, ∃ parts : List Tbl, kv.2 = PyV.vdask parts ∧
      parts.length ≠ l0.length) :
    ∃ ip c, c ≠ l0.length ∧ ∀ f : PyV → PyV,
      delayed_call { n with processF := f } inputs
        = Except.error (.partitionMismatch n.uid ip c l0.length) := by
  subst hin
  rcases delayed_gather_all_or_mismatch n.uid rest l0.length
      (merge_partition [] ip0 l0) hdask with h | h
  · exfalso
    obtain ⟨kv, hkv, parts, hps, hne⟩ := hmis
    obtain ⟨s, _, hfact⟩ := h
    exact hne (hfact kv hkv parts hps)
  · obtain ⟨ip, c, hc, herr⟩ := h
    refine ⟨ip, c, hc, fun f => ?_⟩
    rw [delayed_call]
    have hhead : delayed_gather n.uid ((ip0, PyV.vdask l0) :: rest) none []
        = delayed_gather n.uid rest (some l0.length) (merge_partition [] ip0 l0) := by
      rw [delayed_gather]
      simp [to_delayed, Bind.bind, Except.bind, pure, Except.pure]
    simp only []
    rw [show ({ n with processF := f } : RNode).uid = n.uid from rfl]
    rw [hhead, herr]
    rfl

/-- A concrete lazy ported node for the C4 witness. -/
def nc4 : RNode :=
  { uid := "n4", usingPorts := true, inPortsOrder := ["i0", "i1"],
    outPortsSpec := [("o1", ⟨false, [Ty.tCudf]⟩)],
    load := .boolv false, save := false, delayed_process := true, profile := false,
    clear_input := true, outputColumns := .ports [("o1", [])],
    processF := fun _ => PyV.vnone, loadCache := PyV.vnone }

/-- C4 witness: dask inputs with 3 and 4 partitions fail with the
partition-mismatch error for every transform. -/
theorem c4_witness :
    ∃ ip c, c ≠ ([⟨1, []⟩, ⟨1, []⟩, ⟨1, []⟩] : List Tbl).length ∧ ∀ f : PyV → PyV,
      delayed_call { nc4 with processF := f }
        [("i0", PyV.vdask [⟨1, []⟩, ⟨1, []⟩, ⟨1, []⟩]),
         ("i1", PyV.vdask [⟨1, []⟩, ⟨1, []⟩, ⟨1, []⟩, ⟨1, []⟩])]
        = Except.error (.partitionMismatch nc4.uid ip c
            ([⟨1, []⟩, ⟨1, []⟩, ⟨1, []⟩] : List Tbl).length) :=
  c4_partition_mismatch nc4 _ "i0" [⟨1, []⟩, ⟨1, []⟩, ⟨1, []⟩]
    [("i1", PyV.vdask [⟨1, []⟩, ⟨1, []⟩, ⟨1, []⟩, ⟨1, []⟩])] rfl rfl rfl
    (by
      intro kv hkv
      rcases List.mem_singleton.mp hkv with h
      subst h
      exact ⟨_, rfl⟩)
    ⟨("i1", PyV.vdask [⟨1, []⟩, ⟨1, []⟩, ⟨1, []⟩, ⟨1, []⟩]), by simp,
      [⟨1, []⟩, ⟨1, []⟩, ⟨1, []⟩, ⟨1, []⟩], rfl, by simp⟩

/-! ### C6: the lazy-execution prerequisite check -/

theorem dly_check_inputs_flag (uid : String) (l : List (String × Ty)) (acc : Bool × List Warn) :
    (dly_check_inputs uid l acc).1 = true ↔ (acc.1 = true ∧ ∀ kv ∈ l, kv.2 = Ty.tDask) := by
  induction l generalizing acc with
  | nil => simp [dly_check_inputs]
  | cons kv rest ih =>
    by_cases h : kv.2 = Ty.tDask
    · rw [dly_check_inputs, if_pos h, ih]
      simp [h]
    · rw [dly_check_inputs, if_neg h, ih]
      simp only [List.mem_cons]
      constructor
      · intro hx
        exact absurd hx.1 (by simp)
      · intro hx
        exact absurd (hx.2 kv (Or.inl rfl)) h

theorem dly_check_inputs_warns (uid : String) (l : List (String × Ty)) (acc : Bool × List Warn) :
    (dly_check_inputs uid l acc).2 = [] ↔ (acc.2 = [] ∧ ∀ kv ∈ l, kv.2 = Ty.tDask) := by
  induction l generalizing acc with
  | nil => simp [dly_check_inputs]
  | cons kv rest ih =>
    by_cases h : kv.2 = Ty.tDask
    · rw [dly_check_inputs, if_pos h, ih]
      simp [h]
    · rw [dly_check_inputs, if_neg h, ih]
      simp only [List.mem_cons]
      constructor
      · intro hx
        exact absurd hx.1 (by simp)
      · intro hx
        exact absurd (hx.2 kv (Or.inl rfl)) h

theorem dly_check_oports_flag (uid : String) (l : List (String × PortSpec))
    (acc : Bool × List Warn) :
    (dly_check_oports uid l acc).1 = true ↔
      (acc.1 = true ∧ ∀ ps ∈ l, Ty.tDask ∈ ps.2.types ∨ Ty.tCudf ∈ ps.2.types) := by
  induction l generalizing acc with
  | nil => simp [dly_check_oports]
  | cons ps rest ih =>
    by_cases h : Ty.tDask ∈ ps.2.types ∨ Ty.tCudf ∈ ps.2.types
    · rw [dly_check_oports, if_pos h, ih]
      simp [h]
    · rw [dly_check_oports, if_neg h, ih]
      simp only [List.mem_cons]
      constructor
      · intro hx
        exact absurd hx.1 (by simp)
      · intro hx
        exact absurd (hx.2 ps (Or.inl rfl)) h

theorem dly_check_oports_warns (uid : String) (l : List (String × PortSpec))
    (acc : Bool × List Warn) :
    (dly_check_oports uid l acc).2 = [] ↔
      (acc.2 = [] ∧ ∀ ps ∈ l, Ty.tDask ∈ ps.2.types ∨ Ty.tCudf ∈ ps.2.types) := by
  induction l generalizing acc with
  | nil => simp [dly_check_oports]
  | cons ps rest ih =>
    by_cases h : Ty.tDask ∈ ps.2.types ∨ Ty.tCudf ∈ ps.2.types
    · rw [dly_check_oports, if_pos h, ih]
      simp [h]
    · rw [dly_check_oports, if_neg h, ih]
      simp only [List.mem_cons]
      constructor
      · intro hx
        exact absurd hx.1 (by simp)
      · intro hx
        exact absurd (hx.2 ps (Or.inl rfl)) h

theorem make_copy_id (v : PyV) : make_copy v = v := by
  cases v <;> rfl

theorem map_make_copy_id (l : List (String × PyV)) :
    l.map (fun kv => (kv.1, make_copy kv.2)) = l := by
  induction l with
  | nil => rfl
  | cons kv rest ih =>
    simp [make_copy_id, ih]

theorem bool_not_true {b : Bool} (h : ¬ b = true) : b = false := by
  cases b
  · rfl
  · exact absurd rfl h

theorem prereq_flag_iff (n : RNode) (inputs : List (String × PyV)) :
    (check_dly_processing_prereq n inputs).1 = true ↔
      (inputs ≠ [] ∧ (∀ kv ∈ inputs, typeOf kv.2 = Ty.tDask) ∧
       (∀ ps ∈ n.outPortsSpec, Ty.tDask ∈ ps.2.types ∨ Ty.tCudf ∈ ps.2.types)) := by
  rw [check_dly_processing_prereq]
  by_cases h1 : (inputs.map (fun kv => (kv.1, typeOf kv.2))).any
      (fun kv => kv.2 = Ty.tDask) = true
  · simp only [h1, if_true]
    by_cases h2 : (dly_check_inputs n.uid (inputs.map (fun kv => (kv.1, typeOf kv.2)))
        (true, [])).1 = true
    · rw [if_pos h2, dly_check_oports_flag]
      have h2e := (dly_check_inputs_flag n.uid _ _).mp h2
      constructor
      · intro hx
        have hne : inputs ≠ [] := by
          intro hnil
          rw [hnil] at h1
          simp at h1
        refine ⟨hne, fun kv hkv => ?_, hx.2⟩
        have := h2e.2 (kv.1, typeOf kv.2) (List.mem_map.mpr ⟨kv, hkv, rfl⟩)
        simpa using this
      · intro hx
        exact ⟨h2, hx.2.2⟩
    · rw [if_neg h2]
      constructor
      · intro hx
        exact absurd hx h2
      · intro hx
        exfalso
        refine h2 ((dly_check_inputs_flag n.uid _ _).mpr ⟨rfl, ?_⟩)
        intro kv hkv
        obtain ⟨kv2, hkv2, hkv3⟩ := List.mem_map.mp hkv
        rw [← hkv3]
        simpa using hx.2.1 kv2 hkv2
  · have hf : ((inputs.map (fun kv => (kv.1, typeOf kv.2))).any
        (fun kv => kv.2 = Ty.tDask)) = false := bool_not_true h1
    rw [hf]
    simp only [Bool.false_eq_true, if_false]
    constructor
    · intro hx
      cases hx
    · intro hx
      exfalso
      obtain ⟨kv0, hkv0⟩ := List.exists_mem_of_ne_nil inputs hx.1
      have hd0 : typeOf kv0.2 = Ty.tDask := hx.2.1 kv0 hkv0
      have hcon : ((inputs.map (fun kv => (kv.1, typeOf kv.2))).any
          (fun kv => kv.2 = Ty.tDask)) = true := by
        rw [List.any_eq_true]
        refine ⟨(kv0.1, typeOf kv0.2), List.mem_map.mpr ⟨kv0, hkv0, rfl⟩, ?_⟩
        simpa using hd0
      rw [hf] at hcon
      cases hcon

theorem prereq_warns_iff (n : RNode) (inputs : List (String × PyV)) :
    (check_dly_processing_prereq n inputs).2 = [] ↔
      ((∀ kv ∈ inputs, typeOf kv.2 ≠ Ty.tDask) ∨
       ((∀ kv ∈ inputs, typeOf kv.2 = Ty.tDask) ∧
        (∀ ps ∈ n.outPortsSpec, Ty.tDask ∈ ps.2.types ∨ Ty.tCudf ∈ ps.2.types))) := by
  rw [check_dly_processing_prereq]
  by_cases h1 : (inputs.map (fun kv => (kv.1, typeOf kv.2))).any
      (fun kv => kv.2 = Ty.tDask) = true
  · obtain ⟨kvd, hkvd1, hkvd2⟩ := List.any_eq_true.mp h1
    obtain ⟨kv0, hkv0, hkv0e⟩ := List.mem_map.mp hkvd1
    have hdaskex : typeOf kv0.2 = Ty.tDask := by
      rw [← hkv0e] at hkvd2
      simpa using hkvd2
    have hnotall : ¬ (∀ kv ∈ inputs, typeOf kv.2 ≠ Ty.tDask) :=
      fun hall => hall kv0 hkv0 hdaskex
    simp only [h1, if_true]
    by_cases h2 : (dly_check_inputs n.uid (inputs.map (fun kv => (kv.1, typeOf kv.2)))
        (true, [])).1 = true
    · have h2e := (dly_check_inputs_flag n.uid _ _).mp h2
      have halld : ∀ kv ∈ inputs, typeOf kv.2 = Ty.tDask := by
        intro kv hkv
        have := h2e.2 (kv.1, typeOf kv.2) (List.mem_map.mpr ⟨kv, hkv, rfl⟩)
        simpa using this
      have hw2 : (dly_check_inputs n.uid (inputs.map (fun kv => (kv.1, typeOf kv.2)))
          (true, [])).2 = [] := by
        refine (dly_check_inputs_warns n.uid _ _).mpr ⟨rfl, fun kv hkv => ?_⟩
        obtain ⟨kv2, hkv2, hkv3⟩ := List.mem_map.mp hkv
        rw [← hkv3]
        simpa using halld kv2 hkv2
      rw [if_pos h2, dly_check_oports_warns]
      rw [hw2]
      constructor
      · intro hx
        exact Or.inr ⟨halld, hx.2⟩
      · intro hx
        rcases hx with hx | hx
        · exact absurd hx hnotall
        · exact ⟨rfl, hx.2⟩
    · rw [if_neg h2]
      have hnall : ¬ (∀ kv ∈ inputs, typeOf kv.2 = Ty.tDask) := by
        intro hall
        refine h2 ((dly_check_inputs_flag n.uid _ _).mpr ⟨rfl, fun kv hkv => ?_⟩)
        obtain ⟨kv2, hkv2, hkv3⟩ := List.mem_map.mp hkv
        rw [← hkv3]
        simpa using hall kv2 hkv2
      constructor
      · intro hx
        exfalso
        have hx2 := ((dly_check_inputs_warns n.uid _ _).mp hx).2
        exact hnall (fun kv hkv => by
          have := hx2 (kv.1, typeOf kv.2) (List.mem_map.mpr ⟨kv, hkv, rfl⟩)
          simpa using this)
      · intro hx
        rcases hx with hx | hx
        · exact absurd hx hnotall
        · exact absurd hx.1 hnall
  · have hf : ((inputs.map (fun kv => (kv.1, typeOf kv.2))).any
        (fun kv => kv.2 = Ty.tDask)) = false := bool_not_true h1
    rw [hf]
    simp only [Bool.false_eq_true, if_false]
    constructor
    · intro _
      refine Or.inl (fun kv hkv hd => ?_)
      have hcon : ((inputs.map (fun kv => (kv.1, typeOf kv.2))).any
          (fun kv => kv.2 = Ty.tDask)) = true := by
        rw [List.any_eq_true]
        refine ⟨(kv.1, typeOf kv.2), List.mem_map.mpr ⟨kv, hkv, rfl⟩, ?_⟩
        simpa using hd
      rw [hf] at hcon
      cases hcon
    · intro _
      trivial

theorem prereq_fallback (n : RNode) (inputs : List (String × PyV))
    (hload : n.load = LoadV.boolv false) (hports : n.usingPorts = true)
    (hdly : n.delayed_process = true)
    (hrej : (check_dly_processing_prereq n inputs).1 = false) :
    call_node n inputs = call_finalize n (decorate_process n (.vdict inputs)) := by
  rw [call_node, call_dispatch, hload]
  rw [hports]
  simp only [eq_self_iff_true, if_true]
  rw [map_make_copy_id]
  rw [hdly]
  simp only [not_true, if_false, Bool.not_true]
  rw [hrej]
  simp only [Bool.false_eq_true, if_false, Bind.bind, Except.bind]
  rfl

/-- C6 (amended): the prerequisite check never raises.  It accepts
exactly when there is at least one input, every input is distributed,
and every declared output port's allowed set includes the distributed or
the in-memory kind (so, against the claim as stated, a node with no
inputs is rejected although every input is vacuously distributed).  It
warns exactly when some input is distributed and the configuration still
fails; in particular rejection with no distributed input at all is
silent, again against the claim.  On rejection, __call__ invokes the
transform directly (eager fallback). -/
theorem c6_prereq_characterization (n : RNode) (inputs : List (String × PyV)) :
    ((check_dly_processing_prereq n inputs).1 = true ↔
      (inputs ≠ [] ∧ (∀ kv ∈ inputs, typeOf kv.2 = Ty.tDask) ∧
       (∀ ps ∈ n.outPortsSpec, Ty.tDask ∈ ps.2.types ∨ Ty.tCudf ∈ ps.2.types))) ∧
    ((check_dly_processing_prereq n inputs).2 = [] ↔
      ((∀ kv ∈ inputs, typeOf kv.2 ≠ Ty.tDask) ∨
       ((∀ kv ∈ inputs, typeOf kv.2 = Ty.tDask) ∧
        (∀ ps ∈ n.outPortsSpec, Ty.tDask ∈ ps.2.types ∨ Ty.tCudf ∈ ps.2.types)))) ∧
    (n.load = LoadV.boolv false → n.usingPorts = true → n.delayed_process = true →
      (check_dly_processing_prereq n inputs).1 = false →
      call_node n inputs = call_finalize n (decorate_process n (.vdict inputs))) :=
  ⟨prereq_flag_iff n inputs, prereq_warns_iff n inputs,
    fun h1 h2 h3 h4 => prereq_fallback n inputs h1 h2 h3 h4⟩

/-- A concrete lazy ported node for the C6 counterexample and witness:
one declared output port whose types include the in-memory kind. -/
def nc6 : RNode :=
  { uid := "n6", usingPorts := true, inPortsOrder := ["i0"],
    outPortsSpec := [("o1", ⟨false, [Ty.tCudf]⟩)],
    load := .boolv false, save := false, delayed_process := true, profile := false,
    clear_input := true, outputColumns := .ports [("o1", [])],
    processF := fun _ => PyV.vnone, loadCache := PyV.vnone }

/-- C6 counterexample: with no inputs the check rejects although every
input is (vacuously) distributed and the output port admits the
in-memory kind, and with one in-memory (non-distributed) input it
rejects without emitting any warning, although the claim promises a
warning on every rejection. -/
theorem c6_counterexample :
    check_dly_processing_prereq nc6 [] = (false, []) ∧
    (∀ ps ∈ nc6.outPortsSpec, Ty.tDask ∈ ps.2.types ∨ Ty.tCudf ∈ ps.2.types) ∧
    check_dly_processing_prereq nc6 [("i0", PyV.vdf ⟨1, []⟩)] = (false, []) :=
  ⟨rfl, by decide, rfl⟩

/-- C6 witness: with one in-memory input the node falls back to invoking
the transform directly. -/
theorem c6_witness :
    call_node nc6 [("i0", PyV.vdf ⟨1, [("a", "int64")]⟩)] =
      call_finalize nc6
        (decorate_process nc6 (.vdict [("i0", PyV.vdf ⟨1, [("a", "int64")]⟩)])) :=
  (c6_prereq_characterization nc6 [("i0", PyV.vdf ⟨1, [("a", "int64")]⟩)]).2.2 rfl rfl rfl rfl

/-! ### C7: the None check and the validator -/

theorem validate_df_ne_none (uid : String) (df : PyV) (ref : Option SchemaL) :
    validate_df uid df ref ≠ Except.error RErr.noneOutput := by
  unfold validate_df
  by_cases h1 : (typeOf df = Ty.tCudf ∨ typeOf df = Ty.tDask) ∧ pyLen df = 0
  · rw [if_pos h1]
    simp
  · rw [if_neg h1]
    by_cases h2 : ¬ (typeOf df = Ty.tCudf ∨ typeOf df = Ty.tDask)
    · rw [if_pos h2]
      simp [pure, Except.pure]
    · rw [if_neg h2]
      cases ref with
      | none => simp
      | some r =>
        dsimp only
        by_cases h3 : (dfCols df).length ≠ r.length
        · rw [if_pos h3]
          simp
        · rw [if_neg h3]
          simp [pure, Except.pure]

theorem valide_port_step_ne_none (n : RNode) (ref : OutView) (pname : String)
    (pspec : PortSpec) (out : PyV) :
    valide_port_step n ref pname pspec out ≠ Except.error RErr.noneOutput := by
  cases out with
  | vdict dout =>
    rw [valide_port_step]
    cases hpg : pget dout pname with
    | none =>
      simp only
      by_cases hopt : pspec.optional = true
      · simp [hopt, pure, Except.pure]
      · have hof : pspec.optional = false := bool_not_true hopt
        simp [hof]
    | some out_val =>
      simp only
      by_cases hw : pspec.types ≠ [] ∧ typeOf out_val ∉
          (if n.delayed_process = true ∧ Ty.tCudf ∈ pspec.types ∧ Ty.tDask ∉ pspec.types
           then pspec.types ++ [Ty.tDask] else pspec.types)
      · rw [if_pos hw]
        simp
      · rw [if_neg hw]
        by_cases h5 : (typeOf out_val = Ty.tCudf ∨ typeOf out_val = Ty.tDask) ∧
            pyLen out_val = 0 ∧ pspec.optional = true
        · rw [if_pos h5]
          simp [pure, Except.pure]
        · rw [if_neg h5]
          by_cases h6 : typeOf out_val = Ty.tCudf ∨ typeOf out_val = Ty.tDask
          · rw [if_pos h6]
            cases ref with
            | ports m =>
              cases hv : validate_df n.uid out_val (pget m pname) with
              | error e =>
                simp only [hv]
                intro hcon
                injection hcon with he
                exact validate_df_ne_none n.uid out_val (pget m pname) (by rw [hv, he])
              | ok b =>
                simp only [hv]
                by_cases hb : b = true
                · subst hb
                  simp [pure, Except.pure]
                · have hbf : b = false := bool_not_true hb
                  subst hbf
                  simp
            | flat m => simp
          · rw [if_neg h6]
            simp [pure, Except.pure]
  | vdf t => simp [valide_port_step]
  | vdask parts => simp [valide_port_step]
  | vlist vs => simp [valide_port_step]
  | vnone => simp [valide_port_step]
  | vother tag => simp [valide_port_step]

theorem valide_ports_ne_none (n : RNode) (out : PyV) (ref : OutView)
    (l : List (String × PortSpec)) :
    valide_ports n out ref l ≠ Except.error RErr.noneOutput := by
  induction l with
  | nil => simp [valide_ports, pure, Except.pure]
  | cons hd rest ih =>
    obtain ⟨pname, pspec⟩ := hd
    rw [valide_ports]
    cases hs : valide_port_step n ref pname pspec out with
    | error e =>
      simp only [hs, Bind.bind, Except.bind]
      intro hcon
      injection hcon with he
      exact valide_port_step_ne_none n ref pname pspec out (by rw [hs, he])
    | ok u =>
      simpa only [hs, Bind.bind, Except.bind] using ih

theorem valide_ne_none (n : RNode) (out : PyV) (ref : OutView) :
    valide n out ref ≠ Except.error RErr.noneOutput := by
  unfold valide
  by_cases hp : n.usingPorts = true
  · rw [if_pos hp]
    exact valide_ports_ne_none n out ref n.outPortsSpec
  · rw [if_neg hp]
    cases ref with
    | ports m => simp
    | flat m =>
      dsimp only
      cases hv : validate_df n.uid out (some m) with
      | error e =>
        simp only [hv]
        intro hcon
        injection hcon with he
        exact validate_df_ne_none n.uid out (some m) (by rw [hv, he])
      | ok b =>
        simp only [hv]
        by_cases hb : b = true
        · subst hb
          simp [pure, Except.pure]
        · have hbf : b = false := bool_not_true hb
          subst hbf
          simp

/-- C7: the None-output error is raised exactly when the produced result
is None and the node is not the sentinel output node; in every other
case __valide runs against the node's computed output_columns and its
verdict gates the returned result. -/
theorem c7_null_check_and_validation (n : RNode) (output_df : PyV) :
    (call_finalize n output_df = Except.error RErr.noneOutput ↔
      (n.uid ≠ OUTPUT_ID ∧ isNoneV output_df = true)) ∧
    (¬ (n.uid ≠ OUTPUT_ID ∧ isNoneV output_df = true) →
      call_finalize n output_df =
        match valide n output_df n.outputColumns with
        | .error e => Except.error e
        | .ok _ => pure output_df) := by
  constructor
  · constructor
    · intro h
      by_cases hc : n.uid ≠ OUTPUT_ID ∧ isNoneV output_df = true
      · exact hc
      · exfalso
        rw [call_finalize, if_neg hc] at h
        cases hv : valide n output_df n.outputColumns with
        | error e =>
          rw [hv] at h
          injection h with he
          exact valide_ne_none n output_df n.outputColumns (by rw [hv, he])
        | ok u =>
          rw [hv] at h
          exact absurd h (by simp [pure, Except.pure])
    · intro hc
      rw [call_finalize, if_pos hc]
  · intro hc
    rw [call_finalize, if_neg hc]

/-- A concrete node for the C7 witness. -/
def nc7 : RNode :=
  { uid := "n7", usingPorts := true, inPortsOrder := [],
    outPortsSpec := [("o1", ⟨true, []⟩)],
    load := .boolv false, save := false, delayed_process := false, profile := false,
    clear_input := true, outputColumns := .ports [("o1", [])],
    processF := fun _ => PyV.vdict [], loadCache := PyV.vnone }

/-- C7 witness: for a non-None result the validator's verdict gates the
return. -/
theorem c7_witness :
    call_finalize nc7 (PyV.vdict []) =
      match valide nc7 (PyV.vdict []) nc7.outputColumns with
      | .error e => Except.error e
      | .ok _ => pure (PyV.vdict []) :=
  (c7_null_check_and_validation nc7 (PyV.vdict [])).2
    (fun hc => by cases hc.2)

/-! ### C3: the missing-output-port error -/

/-- Recognizer for the edge-routing missing-output-port error. -/
def is_missing_output_port : RErr → Bool
  | .missingOutputPort _ _ _ => true
  | _ => false

/-- C3 (amended): when a ported node's invocation succeeds but its output
dict is missing the port an outgoing edge selects, the walk fails with
the MissingOutputPortError naming the port and the node, and its message
distinguishes a declared graph output (the sentinel consumer) from a
port required as another node's input.  Because output validation inside
the invocation already rejects a missing non-optional port, this error
is reachable only for ports that passed validation (e.g. optional
ones). -/
theorem c3_missing_port_routing (g : RGraph) (v : Nat) (s : RState) (fuel : Nat)
    (e : REdge) (d : List (String × PyV))
    (houts : g.outs v = [e]) (he : e.fromPort = some "p2")
    (hready : input_ready (g.node v) (s.inDF v) = true)
    (hcall : call_node (g.node v) (s.inDF v) = Except.ok (PyV.vdict d))
    (hmiss : pget d "p2" = none) :
    flow (fuel + 1) g v s = Except.error (.rerr (.missingOutputPort "p2" (g.node v).uid
      (if (g.node e.toNode).uid = OUTPUT_ID then OutDest.graphOutput
       else OutDest.inputToNode (g.node e.toNode).uid))) := by
  rw [flow]
  rw [hready]
  simp only [if_true, hcall, houts]
  rw [flow_edges]
  have hsel : flow_select g v (PyV.vdict d) e = Except.error
      (.missingOutputPort "p2" (g.node v).uid
        (if (g.node e.toNode).uid = OUTPUT_ID then OutDest.graphOutput
         else OutDest.inputToNode (g.node e.toNode).uid)) := by
    rw [flow_select, he]
    simp only [hmiss]
  rw [hsel]

/-- The erroring node for the C3 counterexample: ports p1 and p2 both
non-optional, transform returns only p1. -/
def c3node : RNode :=
  { uid := "n0", usingPorts := true, inPortsOrder := [],
    outPortsSpec := [("p1", ⟨false, []⟩), ("p2", ⟨false, []⟩)],
    load := .boolv false, save := false, delayed_process := false, profile := false,
    clear_input := true, outputColumns := .ports [("p1", []), ("p2", [])],
    processF := fun _ => PyV.vdict [("p1", PyV.vother "t")], loadCache := PyV.vnone }

/-- Like c3node but p2 is optional, so invocation passes validation. -/
def c3nodeOpt : RNode :=
  { uid := "n0", usingPorts := true, inPortsOrder := [],
    outPortsSpec := [("p1", ⟨false, []⟩), ("p2", ⟨true, []⟩)],
    load := .boolv false, save := false, delayed_process := false, profile := false,
    clear_input := true, outputColumns := .ports [("p1", []), ("p2", [])],
    processF := fun _ => PyV.vdict [("p1", PyV.vother "t")], loadCache := PyV.vnone }

/-- A downstream consumer node. -/
def c3tgt : RNode :=
  { uid := "n1", usingPorts := false, inPortsOrder := ["in0"],
    outPortsSpec := [], load := .boolv false, save := false, delayed_process := false,
    profile := false, clear_input := true, outputColumns := .flat [],
    processF := fun _ => PyV.vnone, loadCache := PyV.vnone }

/-- Graph for the counterexample: n0 feeds p2 to n1. -/
def c3g : RGraph :=
  { node := fun v => if v = 0 then c3node else c3tgt,
    outs := fun v => if v = 0 then [⟨1, "in0", some "p2"⟩] else [] }

/-- Same graph with the optional-p2 node. -/
def c3gOpt : RGraph :=
  { node := fun v => if v = 0 then c3nodeOpt else c3tgt,
    outs := fun v => if v = 0 then [⟨1, "in0", some "p2"⟩] else [] }

/-- The empty runtime state. -/
def c3s : RState := ⟨fun _ => []⟩

/-- A fatal error from the node invocation aborts the walk with it. -/
theorem flow_call_error (g : RGraph) (v : Nat) (s : RState) (fuel : Nat) (er : RErr)
    (hready : input_ready (g.node v) (s.inDF v) = true)
    (hcall : call_node (g.node v) (s.inDF v) = Except.error er) :
    flow (fuel + 1) g v s = Except.error (.rerr er) := by
  rw [flow]
  rw [hready]
  simp only [if_true, hcall]

/-- C3 counterexample: with p2 non-optional and an edge from p2,
execution fails inside output validation with the plain did-not-produce
error, which names the node and p2 but is not the MissingOutputPortError
and carries no graph-output versus node-input distinction. -/
theorem c3_counterexample :
    flow 2 c3g 0 c3s = Except.error (.rerr (.didNotProduceOutput "n0" "p2")) ∧
    is_missing_output_port (.didNotProduceOutput "n0" "p2") = false :=
  ⟨flow_call_error c3g 0 c3s 1 (.didNotProduceOutput "n0" "p2") rfl rfl, rfl⟩

/-- C3 witness: with p2 optional, the edge-routing error fires and names
the consumer node. -/
theorem c3_witness :
    flow 2 c3gOpt 0 c3s = Except.error (.rerr (.missingOutputPort "p2" "n0"
      (OutDest.inputToNode "n1"))) :=
  Eq.trans
    (c3_missing_port_routing c3gOpt 0 c3s 1 ⟨1, "in0", some "p2"⟩
      [("p1", PyV.vother "t")] rfl rfl rfl rfl rfl)
    (by rfl)

/-! ### C5: idempotence of schema propagation

The development below shows that on an acyclic graph (witnessed by a
rank function decreasing along edges, with each input port fed by at
most one edge) a completed propagation pass leaves the state a fixpoint:
running it again changes nothing, and a call on a node whose inbound
schemas are not all known never changes state. -/

/-- One graph step: an edge from u to v. -/
def gstep (g : CGraph) (u v : Nat) : Prop := ∃ e, e ∈ g.outs u ∧ e.toNode = v

/-- Reachability along edges (reflexive-transitive). -/
def Reaches (g : CGraph) : Nat → Nat → Prop := Relation.ReflTransGen (gstep g)

/-- Readiness as a proposition. -/
def readyP (g : CGraph) (v : Nat) (s : SState) : Prop := input_columns_ready g v s = true

/-- Node v is locally settled in state s: its stored output_columns is
what columns_flow would recompute from its current input_columns, and
every outgoing edge's target port holds the pushed slice. -/
def LocSet (g : CGraph) (s : SState) (v : Nat) : Prop :=
  ∃ out, columns_flow_core (g.node v) (s.inCols v) = Except.ok out ∧
    s.outCols v = out ∧
    ∀ e ∈ g.outs v, ∃ cols, select_out_cols (g.node v) out e.fromPort = Except.ok cols ∧
      pget (s.inCols e.toNode) e.toPort = some cols

/-- The footprint of node m (its inputs, output, and the values at its
edge targets) is unchanged between two states. -/
def FPu (g : CGraph) (t t2 : SState) (m : Nat) : Prop :=
  t2.inCols m = t.inCols m ∧ t2.outCols m = t.outCols m ∧
  ∀ e ∈ g.outs m, pget (t2.inCols e.toNode) e.toPort = pget (t.inCols e.toNode) e.toPort

theorem FPu_refl (g : CGraph) (t : SState) (m : Nat) : FPu g t t m :=
  ⟨rfl, rfl, fun _ _ => rfl⟩

theorem FPu_trans {g : CGraph} {t u t2 : SState} {m : Nat}
    (h1 : FPu g t u m) (h2 : FPu g u t2 m) : FPu g t t2 m :=
  ⟨h2.1.trans h1.1, h2.2.1.trans h1.2.1,
    fun e he => (h2.2.2 e he).trans (h1.2.2 e he)⟩

theorem ready_of_FPu {g : CGraph} {t t2 : SState} {m : Nat} (h : FPu g t t2 m) :
    readyP g m t2 ↔ readyP g m t := by
  unfold readyP input_columns_ready
  rw [h.1]

theorem LocSet_of_FPu {g : CGraph} {t t2 : SState} {m : Nat} (h : FPu g t t2 m)
    (hl : LocSet g t m) : LocSet g t2 m := by
  obtain ⟨out, hcore, hout, hedges⟩ := hl
  refine ⟨out, ?_, ?_, ?_⟩
  · rw [h.1]
    exact hcore
  · rw [h.2.1]
    exact hout
  · intro e he
    obtain ⟨cols, hsel, hval⟩ := hedges e he
    exact ⟨cols, hsel, (h.2.2 e he).trans hval⟩

theorem reaches_rank_le {g : CGraph} {rank : Nat → Nat}
    (hrank : ∀ u e, e ∈ g.outs u → rank e.toNode < rank u)
    {u m : Nat} (h : Reaches g u m) : rank m ≤ rank u := by
  induction h with
  | refl => exact le_rfl
  | tail _ hstep ih =>
    obtain ⟨e, he, hto⟩ := hstep
    rw [← hto]
    exact le_trans (le_of_lt (hrank _ e he)) ih

theorem no_reach_back {g : CGraph} {rank : Nat → Nat}
    (hrank : ∀ u e, e ∈ g.outs u → rank e.toNode < rank u)
    {u : Nat} {e : CEdge} (he : e ∈ g.outs u) : ¬ Reaches g e.toNode u :=
  fun h => absurd (reaches_rank_le hrank h) (not_le.mpr (hrank u e he))

theorem reaches_of_edge {g : CGraph} {u : Nat} {e : CEdge} (he : e ∈ g.outs u) :
    Reaches g u e.toNode :=
  Relation.ReflTransGen.single ⟨e, he, rfl⟩

/-! State update lemmas -/

theorem inCols_setInCol_ne (s : SState) (w : Nat) (p : String) (c : SchemaL)
    {m : Nat} (h : m ≠ w) : (setInCol s w p c).inCols m = s.inCols m := by
  simp [setInCol, Function.update_apply, h]

theorem inCols_setInCol_self (s : SState) (w : Nat) (p : String) (c : SchemaL) :
    (setInCol s w p c).inCols w = pset (s.inCols w) p c := by
  simp [setInCol]

theorem outCols_setInCol (s : SState) (w : Nat) (p : String) (c : SchemaL) :
    (setInCol s w p c).outCols = s.outCols := rfl

theorem inCols_setOutCols (s : SState) (w : Nat) (o : OutView) :
    (setOutCols s w o).inCols = s.inCols := rfl

theorem outCols_setOutCols_ne (s : SState) (w : Nat) (o : OutView)
    {m : Nat} (h : m ≠ w) : (setOutCols s w o).outCols m = s.outCols m := by
  simp [setOutCols, Function.update_apply, h]

theorem outCols_setOutCols_self (s : SState) (w : Nat) (o : OutView) :
    (setOutCols s w o).outCols w = o := by
  simp [setOutCols]

theorem pget_inCols_setInCol (s : SState) (w : Nat) (p : String) (c : SchemaL)
    (m : Nat) (q : String) :
    pget ((setInCol s w p c).inCols m) q =
      if m = w ∧ p = q then some c else pget (s.inCols m) q := by
  by_cases hm : m = w
  · subst hm
    rw [inCols_setInCol_self]
    by_cases hq : p = q
    · subst hq
      simp [pget_pset_self]
    · rw [pget_pset_ne _ _ _ _ hq]
      simp [hq]
  · rw [inCols_setInCol_ne _ _ _ _ hm]
    simp [hm]

/-! Inversion lemmas for the fueled walk -/

theorem columns_flow_zero (g : CGraph) (v : Nat) (s : SState) :
    columns_flow 0 g v s = none := by
  rw [columns_flow]

theorem columns_flow_succ_inv {g : CGraph} {fuel : Nat} {v : Nat} {t t2 : SState}
    (h : columns_flow (fuel + 1) g v t = some t2) :
    (input_columns_ready g v t = false ∧ t2 = t) ∨
    (input_columns_ready g v t = true ∧
      ∃ out, columns_flow_core (g.node v) (t.inCols v) = Except.ok out ∧
        columns_flow_edges fuel g v out (g.outs v) (setOutCols t v out) = some t2) := by
  rw [columns_flow] at h
  by_cases hr : input_columns_ready g v t = true
  · rw [hr] at h
    simp only [if_true] at h
    cases hcore : columns_flow_core (g.node v) (t.inCols v) with
    | error e =>
      rw [hcore] at h
      cases h
    | ok out =>
      rw [hcore] at h
      exact Or.inr ⟨hr, out, rfl, h⟩
  · have hf := bool_not_true hr
    rw [hf] at h
    simp only [Bool.false_eq_true, if_false] at h
    injection h with h2
    exact Or.inl ⟨hf, h2.symm⟩

theorem columns_flow_edges_nil_inv {g : CGraph} {fuel : Nat} {v : Nat} {out : OutView}
    {s t2 : SState} (h : columns_flow_edges fuel g v out [] s = some t2) : t2 = s := by
  rw [columns_flow_edges] at h
  injection h with h2
  exact h2.symm

theorem columns_flow_edges_cons_inv {g : CGraph} {fuel : Nat} {v : Nat} {out : OutView}
    {e : CEdge} {rest : List CEdge} {s t2 : SState}
    (h : columns_flow_edges fuel g v out (e :: rest) s = some t2) :
    ∃ cols s2, select_out_cols (g.node v) out e.fromPort = Except.ok cols ∧
      columns_flow fuel g e.toNode (setInCol s e.toNode e.toPort cols) = some s2 ∧
      columns_flow_edges fuel g v out rest s2 = some t2 := by
  rw [columns_flow_edges] at h
  cases hsel : select_out_cols (g.node v) out e.fromPort with
  | error er =>
    rw [hsel] at h
    dsimp only at h
    cases h
  | ok cols =>
    rw [hsel] at h
    dsimp only at h
    cases hrec : columns_flow fuel g e.toNode (setInCol s e.toNode e.toPort cols) with
    | none =>
      rw [hrec] at h
      dsimp only at h
      cases h
    | some s2 =>
      rw [hrec] at h
      dsimp only at h
      exact ⟨cols, s2, rfl, hrec, h⟩

theorem columns_flow_not_ready (g : CGraph) (fuel : Nat) (v : Nat) (s : SState)
    (h : input_columns_ready g v s = false) :
    columns_flow (fuel + 1) g v s = some s := by
  rw [columns_flow]
  rw [h]
  simp

/-- What one completed columns_flow call guarantees: output_columns
change only inside the reachable cone (R1); input_columns change, as
stored dicts (R2a) and as per-port values (R2b), only at targets of
edges leaving the cone; an unready call is a no-op (R3); a ready call
leaves the root's inputs alone and the root locally settled (R4); and
every node is either untouched on its footprint or, if ready at the end,
locally settled (R5). -/
def RunSpec (g : CGraph) (fuel : Nat) : Prop :=
  ∀ v t t2, columns_flow fuel g v t = some t2 →
    (∀ m, ¬ Reaches g v m → t2.outCols m = t.outCols m) ∧
    (∀ m, t2.inCols m ≠ t.inCols m →
      ∃ u e2, Reaches g v u ∧ e2 ∈ g.outs u ∧ e2.toNode = m) ∧
    (∀ m q, pget (t2.inCols m) q ≠ pget (t.inCols m) q →
      ∃ u e2, Reaches g v u ∧ e2 ∈ g.outs u ∧ e2.toNode = m ∧ e2.toPort = q) ∧
    (input_columns_ready g v t = false → t2 = t) ∧
    (readyP g v t → t2.inCols v = t.inCols v ∧ LocSet g t2 v) ∧
    (∀ m, FPu g t t2 m ∨ (readyP g m t2 → LocSet g t2 m))

/-- What the outgoing-edge loop guarantees, given that its edges belong
to node v's edge list. -/
def FoldSpec (g : CGraph) (fuel : Nat) : Prop :=
  ∀ v out es s t2, (∀ e ∈ es, e ∈ g.outs v) →
    columns_flow_edges fuel g v out es s = some t2 →
    (∀ m, ¬ (∃ e ∈ es, Reaches g e.toNode m) → t2.outCols m = s.outCols m) ∧
    (∀ m, t2.inCols m ≠ s.inCols m →
      (∃ e2 ∈ es, e2.toNode = m) ∨
      (∃ u e2, (∃ e2b ∈ es, Reaches g e2b.toNode u) ∧ e2 ∈ g.outs u ∧ e2.toNode = m)) ∧
    (∀ m q, pget (t2.inCols m) q ≠ pget (s.inCols m) q →
      (∃ e2, e2 ∈ es ∧ e2.toNode = m ∧ e2.toPort = q ∧ ∃ cols,
        select_out_cols (g.node v) out e2.fromPort = Except.ok cols ∧
        pget (t2.inCols m) q = some cols) ∨
      (∃ u e2, (∃ e2b ∈ es, Reaches g e2b.toNode u) ∧ e2 ∈ g.outs u ∧
        e2.toNode = m ∧ e2.toPort = q)) ∧
    (∀ e2 ∈ es, ∃ cols, select_out_cols (g.node v) out e2.fromPort = Except.ok cols ∧
      pget (t2.inCols e2.toNode) e2.toPort = some cols) ∧
    (∀ m, m ≠ v → FPu g s t2 m ∨ (readyP g m t2 → LocSet g t2 m))

theorem fold_spec_of_run (g : CGraph) (rank : Nat → Nat)
    (hrank : ∀ u e, e ∈ g.outs u → rank e.toNode < rank u)
    (huniq : ∀ u u2 e e2, e ∈ g.outs u → e2 ∈ g.outs u2 → e.toNode = e2.toNode →
      e.toPort = e2.toPort → u = u2 ∧ e.fromPort = e2.fromPort)
    (fuel : Nat) (hrun : RunSpec g fuel) : FoldSpec g fuel := by
  intro v out es
  induction es with
  | nil =>
    intro s t2 hes h
    have ht := columns_flow_edges_nil_inv h
    subst ht
    exact ⟨fun m _ => rfl, fun m hm => absurd rfl hm, fun m q hm => absurd rfl hm,
      fun e2 he2 => absurd he2 (List.not_mem_nil e2),
      fun m _ => Or.inl (FPu_refl g _ m)⟩
  | cons e rest ih =>
    intro s t2 hes h
    obtain ⟨cols, s2, hsel, hrec, hrest⟩ := columns_flow_edges_cons_inv h
    obtain ⟨hR1, hR2a, hR2b, hR3, hR4, hR5⟩ := hrun e.toNode _ s2 hrec
    have hes2 : ∀ e2 ∈ rest, e2 ∈ g.outs v := fun e2 he2 => hes e2 (List.mem_cons_of_mem e he2)
    obtain ⟨hE1, hE2a, hE2b, hE3, hE4⟩ := ih s2 t2 hes2 hrest
    have hev : e ∈ g.outs v := hes e (List.mem_cons_self e rest)
    refine ⟨?_, ?_, ?_, ?_, ?_⟩
    · -- E1: output frame
      intro m hm
      have hm1 : ¬ (∃ e2 ∈ rest, Reaches g e2.toNode m) := by
        rintro ⟨e2, he2, hre⟩
        exact hm ⟨e2, List.mem_cons_of_mem e he2, hre⟩
      have hm2 : ¬ Reaches g e.toNode m :=
        fun hre => hm ⟨e, List.mem_cons_self e rest, hre⟩
      rw [hE1 m hm1, hR1 m hm2, outCols_setInCol]
    · -- E2a: input dict frame
      intro m hm
      by_cases h1 : t2.inCols m = s2.inCols m
      · by_cases h2 : s2.inCols m = (setInCol s e.toNode e.toPort cols).inCols m
        · have h3 : (setInCol s e.toNode e.toPort cols).inCols m ≠ s.inCols m := by
            intro hcon
            exact hm (h1.trans (h2.trans hcon))
          by_cases hmn : m = e.toNode
          · exact Or.inl ⟨e, List.mem_cons_self e rest, hmn.symm⟩
          · exact absurd (inCols_setInCol_ne s e.toNode e.toPort cols hmn) h3
        · obtain ⟨u, e2, hru, he2, hto⟩ := hR2a m h2
          exact Or.inr ⟨u, e2, ⟨e, List.mem_cons_self e rest, hru⟩, he2, hto⟩
      · rcases hE2a m h1 with ⟨e2, he2, hto⟩ | ⟨u, e2, ⟨e2b, he2b, hru⟩, he2, hto⟩
        · exact Or.inl ⟨e2, List.mem_cons_of_mem e he2, hto⟩
        · exact Or.inr ⟨u, e2, ⟨e2b, List.mem_cons_of_mem e he2b, hru⟩, he2, hto⟩
    · -- E2b: per-port values
      intro m q hm
      by_cases h1 : pget (t2.inCols m) q = pget (s2.inCols m) q
      · by_cases h2 : pget (s2.inCols m) q
            = pget ((setInCol s e.toNode e.toPort cols).inCols m) q
        · have h3 : pget ((setInCol s e.toNode e.toPort cols).inCols m) q
              ≠ pget (s.inCols m) q := by
            intro hcon
            exact hm (h1.trans (h2.trans hcon))
          by_cases hc : m = e.toNode ∧ e.toPort = q
          · refine Or.inl ⟨e, List.mem_cons_self e rest, hc.1.symm, hc.2, cols, hsel, ?_⟩
            rw [h1, h2, pget_inCols_setInCol]
            simp [hc]
          · exfalso
            apply h3
            rw [pget_inCols_setInCol]
            simp [hc]
        · obtain ⟨u, e2, hru, he2, hto, htp⟩ := hR2b m q h2
          exact Or.inr ⟨u, e2, ⟨e, List.mem_cons_self e rest, hru⟩, he2, hto, htp⟩
      · rcases hE2b m q h1 with ⟨e2, he2, hto, htp, cols2, hsel2, hval2⟩ |
          ⟨u, e2, ⟨e2b, he2b, hru⟩, he2, hto, htp⟩
        · exact Or.inl ⟨e2, List.mem_cons_of_mem e he2, hto, htp, cols2, hsel2, hval2⟩
        · exact Or.inr ⟨u, e2, ⟨e2b, List.mem_cons_of_mem e he2b, hru⟩, he2, hto, htp⟩
    · -- E3: every processed edge holds its pushed value
      intro e2 he2
      rcases List.mem_cons.mp he2 with he2h | he2r
      · subst he2h
        refine ⟨cols, hsel, ?_⟩
        have hw : pget ((setInCol s e2.toNode e2.toPort cols).inCols e2.toNode) e2.toPort
            = some cols := by
          rw [pget_inCols_setInCol]
          simp
        have hs2v : pget (s2.inCols e2.toNode) e2.toPort = some cols := by
          by_cases hch : pget (s2.inCols e2.toNode) e2.toPort
              = pget ((setInCol s e2.toNode e2.toPort cols).inCols e2.toNode) e2.toPort
          · rw [hch, hw]
          · obtain ⟨u, e3, hru, he3, hto, htp⟩ := hR2b _ _ hch
            obtain ⟨hu, _⟩ := huniq u v e3 e2 he3 hev hto htp
            subst hu
            exact absurd hru (no_reach_back hrank hev)
        by_cases hch2 : pget (t2.inCols e2.toNode) e2.toPort
            = pget (s2.inCols e2.toNode) e2.toPort
        · rw [hch2, hs2v]
        · rcases hE2b _ _ hch2 with ⟨e3, he3, hto, htp, cols3, hsel3, hval3⟩ |
            ⟨u, e3, ⟨e2b, he2b, hru⟩, he3, hto, htp⟩
          · obtain ⟨_, hfp⟩ := huniq v v e3 e2 (hes2 e3 he3) hev hto htp
            rw [hval3]
            rw [hfp] at hsel3
            rw [hsel] at hsel3
            injection hsel3 with hcc
            rw [← hcc]
          · obtain ⟨hu, _⟩ := huniq u v e3 e2 he3 hev hto htp
            subst hu
            exact absurd hru (no_reach_back hrank (hes2 e2b he2b))
      · exact hE3 e2 he2r
    · -- E4: footprint-or-settled
      intro m hmv
      by_cases hmn : m = e.toNode
      · subst hmn
        by_cases hready : readyP g e.toNode (setInCol s e.toNode e.toPort cols)
        · have hloc : LocSet g s2 e.toNode := (hR4 hready).2
          rcases hE4 e.toNode hmv with hfpu | hest
          · exact Or.inr (fun _ => LocSet_of_FPu hfpu hloc)
          · exact Or.inr hest
        · have hseq : s2 = setInCol s e.toNode e.toPort cols := hR3 (bool_not_true hready)
          rcases hE4 e.toNode hmv with hfpu | hest
          · refine Or.inr (fun hr => ?_)
            exfalso
            have h7 := (ready_of_FPu hfpu).mp hr
            rw [hseq] at h7
            exact hready h7
          · exact Or.inr hest
      · have hfpu1 : FPu g s (setInCol s e.toNode e.toPort cols) m := by
          refine ⟨inCols_setInCol_ne s _ _ _ hmn, rfl, ?_⟩
          intro e3 he3
          rw [pget_inCols_setInCol]
          by_cases hc : e3.toNode = e.toNode ∧ e.toPort = e3.toPort
          · exfalso
            obtain ⟨hu, _⟩ := huniq m v e3 e he3 hev hc.1 hc.2.symm
            exact hmv hu
          · simp [hc]
        rcases hR5 m with hfpu2 | hest2
        · rcases hE4 m hmv with hfpu3 | hest3
          · exact Or.inl (FPu_trans hfpu1 (FPu_trans hfpu2 hfpu3))
          · exact Or.inr hest3
        · rcases hE4 m hmv with hfpu3 | hest3
          · exact Or.inr (fun hr =>
              LocSet_of_FPu hfpu3 (hest2 ((ready_of_FPu hfpu3).mp hr)))
          · exact Or.inr hest3

theorem run_spec (g : CGraph) (rank : Nat → Nat)
    (hrank : ∀ u e, e ∈ g.outs u → rank e.toNode < rank u)
    (huniq : ∀ u u2 e e2, e ∈ g.outs u → e2 ∈ g.outs u2 → e.toNode = e2.toNode →
      e.toPort = e2.toPort → u = u2 ∧ e.fromPort = e2.fromPort) :
    ∀ fuel, RunSpec g fuel := by
  intro fuel
  induction fuel with
  | zero =>
    intro v t t2 h
    rw [columns_flow_zero] at h
    cases h
  | succ fuel ih =>
    have hfold := fold_spec_of_run g rank hrank huniq fuel ih
    intro v t t2 h
    rcases columns_flow_succ_inv h with ⟨hnr, ht⟩ | ⟨hr, out, hcore, hedges⟩
    · subst ht
      refine ⟨fun m _ => rfl, fun m hm => absurd rfl hm, fun m q hm => absurd rfl hm,
        fun _ => rfl, ?_, fun m => Or.inl (FPu_refl g _ m)⟩
      intro hrdy
      have hrdy2 : input_columns_ready g v t2 = true := hrdy
      rw [hnr] at hrdy2
      cases hrdy2
    · have hesall : ∀ e ∈ g.outs v, e ∈ g.outs v := fun _ he => he
      obtain ⟨hE1, hE2a, hE2b, hE3, hE4⟩ :=
        hfold v out (g.outs v) (setOutCols t v out) t2 hesall hedges
      have hinv : t2.inCols v = t.inCols v := by
        by_cases hch : t2.inCols v = (setOutCols t v out).inCols v
        · rw [hch, inCols_setOutCols]
        · rcases hE2a v hch with ⟨e2, he2, hto⟩ | ⟨u, e2, ⟨e2b, he2b, hru⟩, he2, hto⟩
          · exact absurd (hto ▸ hrank v e2 he2) (lt_irrefl _)
          · have h6 : rank v < rank u := hto ▸ hrank u e2 he2
            have h7 : rank u ≤ rank e2b.toNode := reaches_rank_le hrank hru
            have h8 : rank e2b.toNode < rank v := hrank v e2b he2b
            omega
      have houtv : t2.outCols v = out := by
        have h9 : ¬ ∃ e2 ∈ g.outs v, Reaches g e2.toNode v := by
          rintro ⟨e2, he2, hru⟩
          exact no_reach_back hrank he2 hru
        rw [hE1 v h9, outCols_setOutCols_self]
      have hloc : LocSet g t2 v := by
        refine ⟨out, ?_, houtv, hE3⟩
        rw [hinv]
        exact hcore
      refine ⟨?_, ?_, ?_, ?_, fun _ => ⟨hinv, hloc⟩, ?_⟩
      · -- R1: output frame
        intro m hm
        have hmv : m ≠ v := fun hh => hm (hh ▸ Relation.ReflTransGen.refl)
        have hm2 : ¬ ∃ e2 ∈ g.outs v, Reaches g e2.toNode m := by
          rintro ⟨e2, he2, hru⟩
          exact hm ((reaches_of_edge he2).trans hru)
        rw [hE1 m hm2, outCols_setOutCols_ne t v out hmv]
      · -- R2a: input dict frame
        intro m hm
        have hm0 : t2.inCols m ≠ (setOutCols t v out).inCols m := by
          rw [inCols_setOutCols]
          exact hm
        rcases hE2a m hm0 with ⟨e2, he2, hto⟩ | ⟨u, e2, ⟨e2b, he2b, hru⟩, he2, hto⟩
        · exact ⟨v, e2, Relation.ReflTransGen.refl, he2, hto⟩
        · exact ⟨u, e2, (reaches_of_edge he2b).trans hru, he2, hto⟩
      · -- R2b: per-port writers
        intro m q hm
        have hm0 : pget (t2.inCols m) q ≠ pget ((setOutCols t v out).inCols m) q := by
          rw [inCols_setOutCols]
          exact hm
        rcases hE2b m q hm0 with ⟨e2, he2, hto, htp, _, _, _⟩ |
          ⟨u, e2, ⟨e2b, he2b, hru⟩, he2, hto, htp⟩
        · exact ⟨v, e2, Relation.ReflTransGen.refl, he2, hto, htp⟩
        · exact ⟨u, e2, (reaches_of_edge he2b).trans hru, he2, hto, htp⟩
      · -- R3 is vacuous here
        intro hf
        rw [hf] at hr
        cases hr
      · -- R5: footprint-or-settled
        intro m
        by_cases hmv : m = v
        · subst hmv
          exact Or.inr (fun _ => hloc)
        · have hfpu0 : FPu g t (setOutCols t v out) m :=
            ⟨rfl, outCols_setOutCols_ne t v out hmv, fun _ _ => rfl⟩
          rcases hE4 m hmv with hfpu | hest
          · exact Or.inl (FPu_trans hfpu0 hfpu)
          · exact Or.inr hest

/-! Forward evaluation lemmas for the well-founded recursion. -/

theorem columns_flow_step (g : CGraph) (fuel : Nat) (v : Nat) (s : SState)
    (hr : input_columns_ready g v s = true) (out : OutView)
    (hcore : columns_flow_core (g.node v) (s.inCols v) = Except.ok out) :
    columns_flow (fuel + 1) g v s =
      columns_flow_edges fuel g v out (g.outs v) (setOutCols s v out) := by
  rw [columns_flow, hr, hcore]
  rfl

theorem columns_flow_edges_nil (fuel : Nat) (g : CGraph) (v : Nat) (out : OutView)
    (s : SState) : columns_flow_edges fuel g v out [] s = some s := by
  rw [columns_flow_edges]

theorem columns_flow_edges_step (fuel : Nat) (g : CGraph) (v : Nat) (out : OutView)
    (e : CEdge) (rest : List CEdge) (s : SState) (cols : SchemaL)
    (hsel : select_out_cols (g.node v) out e.fromPort = Except.ok cols) (s2 : SState)
    (hsub : columns_flow fuel g e.toNode (setInCol s e.toNode e.toPort cols) = some s2) :
    columns_flow_edges fuel g v out (e :: rest) s =
      columns_flow_edges fuel g v out rest s2 := by
  rw [columns_flow_edges, hsel]
  dsimp only
  rw [hsub]

/-! The settled state is a fixed point of the walk. -/

theorem setInCol_self (s : SState) (v : Nat) (p : String) (cols : SchemaL)
    (h : pget (s.inCols v) p = some cols) : setInCol s v p cols = s := by
  unfold setInCol
  rw [pset_self _ _ _ h, Function.update_eq_self]

theorem setOutCols_self2 (s : SState) (v : Nat) (out : OutView)
    (h : s.outCols v = out) : setOutCols s v out = s := by
  unfold setOutCols
  rw [← h, Function.update_eq_self]

theorem edges_fixpoint (g : CGraph) (s : SState) (fuel : Nat) (rank : Nat → Nat)
    (hflow : ∀ v2, rank v2 < fuel → columns_flow fuel g v2 s = some s)
    (v : Nat) (out : OutView) (es : List CEdge)
    (hrankv : ∀ e ∈ es, rank e.toNode < fuel)
    (hvals : ∀ e ∈ es, ∃ cols,
      select_out_cols (g.node v) out e.fromPort = Except.ok cols ∧
      pget (s.inCols e.toNode) e.toPort = some cols) :
    columns_flow_edges fuel g v out es s = some s := by
  induction es with
  | nil => rw [columns_flow_edges]
  | cons e rest ih =>
    obtain ⟨cols, hsel, hval⟩ := hvals e (List.mem_cons_self e rest)
    rw [columns_flow_edges_step fuel g v out e rest s cols hsel s ?_]
    · exact ih (fun e2 he2 => hrankv e2 (List.mem_cons_of_mem e he2))
        (fun e2 he2 => hvals e2 (List.mem_cons_of_mem e he2))
    · rw [setInCol_self s e.toNode e.toPort cols hval]
      exact hflow e.toNode (hrankv e (List.mem_cons_self e rest))

theorem run_fixpoint (g : CGraph) (rank : Nat → Nat)
    (hrank : ∀ u e, e ∈ g.outs u → rank e.toNode < rank u)
    (s : SState) (hset : ∀ m, readyP g m s → LocSet g s m) :
    ∀ fuel v, rank v < fuel → columns_flow fuel g v s = some s := by
  intro fuel
  induction fuel with
  | zero =>
    intro v hv
    exact absurd hv (Nat.not_lt_zero _)
  | succ fuel ih =>
    intro v hv
    by_cases hr : input_columns_ready g v s = true
    · obtain ⟨out, hcore, hout, hedges⟩ := hset v hr
      rw [columns_flow_step g fuel v s hr out hcore]
      rw [setOutCols_self2 s v out hout]
      refine edges_fixpoint g s fuel rank ih v out (g.outs v) ?_ hedges
      intro e he
      exact lt_of_lt_of_le (hrank v e he) (Nat.lt_succ_iff.mp hv)
    · exact columns_flow_not_ready g fuel v s (bool_not_true hr)

/-! Composition over the driver loop. -/

theorem prop_all_fix (g : CGraph) (rank : Nat → Nat)
    (hrank : ∀ u e, e ∈ g.outs u → rank e.toNode < rank u)
    (s : SState) (hset : ∀ m, readyP g m s → LocSet g s m)
    (fuel2 : Nat) (starts : List Nat) (hstarts : ∀ v ∈ starts, rank v < fuel2) :
    propagate_all fuel2 g starts s = some s := by
  induction starts with
  | nil => rfl
  | cons v rest ih =>
    simp only [propagate_all]
    rw [run_fixpoint g rank hrank s hset fuel2 v (hstarts v (List.mem_cons_self v rest))]
    exact ih (fun v2 hv2 => hstarts v2 (List.mem_cons_of_mem v hv2))

theorem prop_all_v3 (g : CGraph) (fuel : Nat) (hrun : RunSpec g fuel) :
    ∀ starts s s2, propagate_all fuel g starts s = some s2 →
      ∀ m, FPu g s s2 m ∨ (readyP g m s2 → LocSet g s2 m) := by
  intro starts
  induction starts with
  | nil =>
    intro s s2 h m
    injection h with h2
    subst h2
    exact Or.inl (FPu_refl g s m)
  | cons v rest ih =>
    intro s s2 h m
    simp only [propagate_all] at h
    cases hv : columns_flow fuel g v s with
    | none =>
      rw [hv] at h
      cases h
    | some sm =>
      rw [hv] at h
      dsimp only at h
      obtain ⟨_, _, _, _, _, hR5⟩ := hrun v s sm hv
      rcases hR5 m with hfpu1 | hest1
      · rcases ih sm s2 h m with hfpu2 | hest2
        · exact Or.inl (FPu_trans hfpu1 hfpu2)
        · exact Or.inr hest2
      · rcases ih sm s2 h m with hfpu2 | hest2
        · exact Or.inr (fun hr =>
            LocSet_of_FPu hfpu2 (hest1 ((ready_of_FPu hfpu2).mp hr)))
        · exact Or.inr hest2

theorem ready_of_no_inputs (g : CGraph) (v : Nat) (s : SState)
    (h : (g.node v).inPortsL = []) : input_columns_ready g v s = true := by
  unfold input_columns_ready
  rw [h]
  rfl

theorem clean_not_ready (g : CGraph) (m : Nat) (s : SState)
    (hne : (g.node m).inPortsL ≠ []) (hcl : s.inCols m = []) :
    input_columns_ready g m s = false := by
  unfold input_columns_ready
  rw [hcl]
  cases hlist : (g.node m).inPortsL with
  | nil => exact absurd hlist hne
  | cons p rest => simp [pget]

theorem prop_all_root (g : CGraph) (fuel : Nat) (hrun : RunSpec g fuel) :
    ∀ starts s s2, propagate_all fuel g starts s = some s2 →
      ∀ v ∈ starts, (g.node v).inPortsL = [] → LocSet g s2 v := by
  intro starts
  induction starts with
  | nil =>
    intro s s2 h v hv
    exact absurd hv (List.not_mem_nil v)
  | cons w rest ih =>
    intro s s2 h v hv hnil
    simp only [propagate_all] at h
    cases hw : columns_flow fuel g w s with
    | none =>
      rw [hw] at h
      cases h
    | some sm =>
      rw [hw] at h
      dsimp only at h
      rcases List.mem_cons.mp hv with hvw | hvr
      · subst hvw
        obtain ⟨_, _, _, _, hR4, _⟩ := hrun v s sm hw
        have hloc : LocSet g sm v := (hR4 (ready_of_no_inputs g v s hnil)).2
        rcases prop_all_v3 g fuel hrun rest sm s2 h v with hfpu | hest
        · exact LocSet_of_FPu hfpu hloc
        · exact hest (ready_of_no_inputs g v s2 hnil)
      · exact ih sm s2 h v hvr hnil

/-- C5: on an acyclic graph (witnessed by a rank function decreasing
along edges) in which every input port has a unique feeding edge,
schema propagation is idempotent: after a first propagation pass from a
clean state over a start list containing every source node, running the
walk again leaves the state — in particular every node's
output_columns — exactly as the first run left it; and a columns_flow
call on a node whose inbound port schemas are not all known returns
without changing any state, whatever the graph and fuel. -/
theorem c5_idempotent_propagation (g : CGraph) (rank : Nat → Nat)
    (hrank : ∀ u e, e ∈ g.outs u → rank e.toNode < rank u)
    (huniq : ∀ u u2 e e2, e ∈ g.outs u → e2 ∈ g.outs u2 → e.toNode = e2.toNode →
      e.toPort = e2.toPort → u = u2 ∧ e.fromPort = e2.fromPort)
    (s0 : SState) (hclean : ∀ m, s0.inCols m = [])
    (starts : List Nat) (hstarts : ∀ m, (g.node m).inPortsL = [] → m ∈ starts)
    (fuel fuel2 : Nat) (s1 : SState)
    (hrun : propagate_all fuel g starts s0 = some s1)
    (hfuel2 : ∀ v ∈ starts, rank v < fuel2) :
    propagate_all fuel2 g starts s1 = some s1 ∧
    (∀ f v s, input_columns_ready g v s = false →
      columns_flow (f + 1) g v s = some s) := by
  have hrs : RunSpec g fuel := run_spec g rank hrank huniq fuel
  have hset : ∀ m, readyP g m s1 → LocSet g s1 m := by
    intro m hm
    by_cases hnil : (g.node m).inPortsL = []
    · exact prop_all_root g fuel hrs starts s0 s1 hrun m (hstarts m hnil) hnil
    · rcases prop_all_v3 g fuel hrs starts s0 s1 hrun m with hfpu | hest
      · exfalso
        have hm1 : input_columns_ready g m s0 = true := (ready_of_FPu hfpu).mp hm
        rw [clean_not_ready g m s0 hnil (hclean m)] at hm1
        cases hm1
      · exact hest hm
  exact ⟨prop_all_fix g rank hrank s1 hset fuel2 starts hfuel2,
    fun f v s hf => columns_flow_not_ready g f v s hf⟩

def w5root : CNode :=
  { uid := "n0", usingPorts := false, inPortsL := [], outPortsL := [],
    conf := [], taskInputs := [], taskInputsFlat := [],
    required := none, addition := none, deletion := none,
    retention := none, rename := none }

def w5child : CNode :=
  { w5root with uid := "n1", inPortsL := ["i"] }

def w5g : CGraph :=
  { node := fun n => if n = 0 then w5root else w5child,
    outs := fun n => if n = 0 then [⟨1, "i", none⟩] else [] }

def w5rank : Nat → Nat := fun v => if v = 0 then 1 else 0

def w5s0 : SState := { inCols := fun _ => [], outCols := fun _ => .flat [] }

def w5s1 : SState :=
  setOutCols (setInCol (setOutCols w5s0 0 (.flat [])) 1 "i" []) 1 (.flat [])

theorem c5_witness :
    propagate_all 2 w5g [0] w5s1 = some w5s1 ∧
    (∀ f v s, input_columns_ready w5g v s = false →
      columns_flow (f + 1) w5g v s = some s) := by
  have hrank : ∀ u e, e ∈ w5g.outs u → w5rank e.toNode < w5rank u := by
    intro u e he
    by_cases hu : u = 0
    · subst hu
      have he2 : e = ⟨1, "i", none⟩ := by
        have h3 : e ∈ [(⟨1, "i", none⟩ : CEdge)] := he
        simpa using h3
      subst he2
      show w5rank 1 < w5rank 0
      decide
    · have h4 : w5g.outs u = [] := by simp [w5g, hu]
      rw [h4] at he
      exact absurd he (List.not_mem_nil e)
  have huniq : ∀ u u2 e e2, e ∈ w5g.outs u → e2 ∈ w5g.outs u2 → e.toNode = e2.toNode →
      e.toPort = e2.toPort → u = u2 ∧ e.fromPort = e2.fromPort := by
    intro u u2 e e2 he he2 _ _
    by_cases hu : u = 0
    · by_cases hu2 : u2 = 0
      · subst hu
        subst hu2
        have hee : e = ⟨1, "i", none⟩ := by
          have h3 : e ∈ [(⟨1, "i", none⟩ : CEdge)] := he
          simpa using h3
        have hee2 : e2 = ⟨1, "i", none⟩ := by
          have h3 : e2 ∈ [(⟨1, "i", none⟩ : CEdge)] := he2
          simpa using h3
        subst hee
        subst hee2
        exact ⟨rfl, rfl⟩
      · have h4 : w5g.outs u2 = [] := by simp [w5g, hu2]
        rw [h4] at he2
        exact absurd he2 (List.not_mem_nil e2)
    · have h4 : w5g.outs u = [] := by simp [w5g, hu]
      rw [h4] at he
      exact absurd he (List.not_mem_nil e)
  have hstarts : ∀ m, (w5g.node m).inPortsL = [] → m ∈ [0] := by
    intro m hm
    by_cases h : m = 0
    · subst h
      exact List.mem_singleton.mpr rfl
    · exfalso
      have h5 : w5g.node m = w5child := by simp [w5g, h]
      rw [h5] at hm
      have hm2 : (["i"] : List String) = [] := hm
      exact List.cons_ne_nil "i" [] hm2
  have hfuel2 : ∀ v ∈ [0], w5rank v < 2 := by
    intro v hv
    have h6 : v = 0 := by simpa using hv
    subst h6
    decide
  have hready0 : input_columns_ready w5g 0 w5s0 = true := rfl
  have hcore0 : columns_flow_core (w5g.node 0) (w5s0.inCols 0)
      = Except.ok (.flat []) := rfl
  have hready1 : input_columns_ready w5g 1
      (setInCol (setOutCols w5s0 0 (.flat [])) 1 "i" []) = true := by rfl
  have hcore1 : columns_flow_core (w5g.node 1)
      ((setInCol (setOutCols w5s0 0 (.flat [])) 1 "i" []).inCols 1)
      = Except.ok (.flat []) := by rfl
  have houts1 : w5g.outs 1 = [] := by simp [w5g]
  have hsub : columns_flow (0 + 1) w5g 1
      (setInCol (setOutCols w5s0 0 (.flat [])) 1 "i" []) = some w5s1 := by
    refine Eq.trans (columns_flow_step w5g 0 1 _ hready1 (.flat []) hcore1) ?_
    rw [houts1, columns_flow_edges_nil]
    rfl
  have houts0 : w5g.outs 0 = [⟨1, "i", none⟩] := by simp [w5g]
  have hflow0 : columns_flow 2 w5g 0 w5s0 = some w5s1 := by
    refine Eq.trans (columns_flow_step w5g 1 0 w5s0 hready0 (.flat []) hcore0) ?_
    rw [houts0]
    refine Eq.trans (columns_flow_edges_step 1 w5g 0 (.flat []) ⟨1, "i", none⟩ []
      (setOutCols w5s0 0 (.flat [])) [] rfl w5s1 hsub) ?_
    exact columns_flow_edges_nil 1 w5g 0 (.flat []) w5s1
  have hrun : propagate_all 2 w5g [0] w5s0 = some w5s1 := by
    simp only [propagate_all]
    rw [hflow0]
  exact c5_idempotent_propagation w5g w5rank hrank huniq w5s0 (fun _ => rfl) [0]
    hstarts 2 2 w5s1 hrun hfuel2

end GQuant
